import Mathlib

/-!
Verification of the retrieval and deduplication engine of the
financial-news-intelligence repository, as a shallow embedding in Lean.

Conventions used throughout:
* Python floats are modelled as exact rationals; the properties verified
  here are order- and structure-level properties of the algorithms, not
  rounding-level properties.
* Square roots (np.linalg.norm) are modelled by an explicit function
  parameter sqrtQ together with the hypothesis that it is nonnegative on
  nonnegative inputs; concrete instantiations pick inputs where the exact
  value is irrelevant or rational.
* Python dict and set values are modelled as association lists and lists;
  theorems about them are stated at the level of membership, which is
  independent of the iteration order of a Python set.
* Stateful code (the sqlite tables, the module-level fallback embedder
  singleton) is modelled by explicit state passing.
-/

/-! ## Generic helpers: Python-style primitives -/

/-- Model of Python list.pop from the end combined with append: a stack is a
Lean list whose head is the top.  Model of the stable sorts used by the code:
both Python sorted (Timsort) and np.argsort on the short arrays arising here
(numpy falls back to a stable insertion sort below its small-array cutoff)
are stable; insertion keeping an element after all elements the comparator
accepts before it realises exactly that stable behaviour. -/
def insertLe {α : Type} (le : α → α → Bool) (x : α) : List α → List α
  | [] => [x]
  | y :: ys => if le y x then y :: insertLe le x ys else x :: y :: ys

/-- Stable insertion sort: elements are inserted left to right, and an element
inserted later never moves in front of an equal earlier element. -/
def sortLe {α : Type} (le : α → α → Bool) (l : List α) : List α :=
  l.foldl (fun acc x => insertLe le x acc) []

/-- Model of Python needle in hay on strings, as character lists:
some split point exposes the needle as a prefix. -/
def startsWithChars : List Char → List Char → Bool
  | _, [] => true
  | [], _ :: _ => false
  | h :: hs, n :: ns => h = n && startsWithChars hs ns

/-- Substring containment, the semantics of the Python in operator on str. -/
def strContains (hay needle : List Char) : Bool :=
  (List.range (hay.length + 1)).any (fun k => startsWithChars (hay.drop k) needle)

/-- ASCII-level model of Python str.lower, sufficient for the entity
vocabularies of the repository (all ASCII). -/
def lowerChars (s : List Char) : List Char := s.map Char.toLower

/-! ## Data model (spec section 3, src/agents/dedup_agent.py usage) -/

/-- An article record: the fields of the article dicts consumed by
DeduplicationAgent.deduplicate (src/agents/dedup_agent.py line 158). -/
structure Article where
  id : Int
  title : String
  content : String
  date : String
  source : String
deriving DecidableEq, Inhabited, Repr

/-- A story produced by DeduplicationAgent.deduplicate
(src/agents/dedup_agent.py lines 183-188). -/
structure Story where
  story_id : Nat
  representative : Article
  article_ids : List Int
  members : List Article
deriving DecidableEq, Inhabited, Repr

/-- The representative-selection key of src/agents/dedup_agent.py line 182:
len(str(content)) + len(str(title)). -/
def artKey (a : Article) : Nat := a.content.length + a.title.length

/-- Model of the Python builtin max(members, key=artKey)
(src/agents/dedup_agent.py line 182): fold keeping the current best and
replacing it only on a strictly greater key, so the FIRST maximal element
of the list wins. -/
def pyMaxBy (key : Article → Nat) : List Article → Option Article
  | [] => none
  | a :: rest => some (rest.foldl (fun acc x => if key acc < key x then x else acc) a)

/-! ## DeduplicationAgent.cluster_by_threshold
(src/agents/dedup_agent.py lines 114-152).

The similarity matrix over n items is a function sim : Fin n → Fin n → ℚ;
the claims quantify over the batch together with the matrix computed for
it, so the matrix is a parameter here (the cosine / SequenceMatcher
computation of compute_similarity_matrix producing it is numeric input). -/

/-- The mutable state of the clustering loop: the visited array and the
labels array of src/agents/dedup_agent.py lines 131-132. -/
structure ClusterState (n : Nat) where
  visited : Fin n → Bool
  labels : Fin n → Int

/-- Initial clustering state: visited = [False]*n, labels = [-1]*n. -/
def initState (n : Nat) : ClusterState n := ⟨fun _ => false, fun _ => -1⟩

/-- neighbors = np.where(sim[u] >= threshold)[0]: the indices v with
tau <= sim u v, in increasing index order (src/agents/dedup_agent.py
line 144). -/
def nbrList {n : Nat} (sim : Fin n → Fin n → ℚ) (τ : ℚ) (u : Fin n) : List (Fin n) :=
  (List.finRange n).filter (fun v => decide (τ ≤ sim u v))

/-- The inner for-loop over neighbors (src/agents/dedup_agent.py lines
145-149): each not-yet-visited neighbor is marked visited, labelled with the
current label, and pushed on the stack. -/
def processNbrs {n : Nat} (label : Int) :
    List (Fin n) → List (Fin n) → ClusterState n → List (Fin n) × ClusterState n
  | [], stack, s => (stack, s)
  | v :: rest, stack, s =>
    if s.visited v then processNbrs label rest stack s
    else processNbrs label rest (v :: stack)
      ⟨Function.update s.visited v true, Function.update s.labels v label⟩

/-- Number of unvisited nodes, the termination measure of the while loop. -/
def unvisitedCount {n : Nat} (vis : Fin n → Bool) : Nat :=
  (Finset.univ.filter (fun i => vis i = false)).card

/-- The while stack loop of src/agents/dedup_agent.py lines 142-149:
pop u, push its unvisited neighbors, repeat until the stack is empty. -/
def dfsLoop {n : Nat} (sim : Fin n → Fin n → ℚ) (τ : ℚ) (label : Int) :
    List (Fin n) → ClusterState n → ClusterState n
  | [], s => s
  | u :: rest, s =>
    dfsLoop sim τ label
      (processNbrs label (nbrList sim τ u) rest s).1
      (processNbrs label (nbrList sim τ u) rest s).2
termination_by stack s => (unvisitedCount s.visited, stack.length)
decreasing_by
  have key : ∀ (L stk : List (Fin n)) (st : ClusterState n),
      unvisitedCount (processNbrs label L stk st).2.visited ≤ unvisitedCount st.visited ∧
      (processNbrs label L stk st = (stk, st) ∨
        unvisitedCount (processNbrs label L stk st).2.visited < unvisitedCount st.visited) := by
    intro L
    induction L with
    | nil => intro stk st; exact ⟨le_refl _, Or.inl rfl⟩
    | cons v vs ih =>
      intro stk st
      by_cases hv : st.visited v = true
      · simpa [processNbrs, hv] using ih stk st
      · have hdrop : unvisitedCount (Function.update st.visited v true) <
            unvisitedCount st.visited := by
          apply Finset.card_lt_card
          rw [Finset.ssubset_iff_of_subset]
          · refine ⟨v, Finset.mem_filter.mpr ⟨Finset.mem_univ v, by simpa using hv⟩, ?_⟩
            simp [unvisitedCount, Function.update_same]
          · intro x hx
            simp only [unvisitedCount, Finset.mem_filter] at hx ⊢
            refine ⟨Finset.mem_univ x, ?_⟩
            by_cases hxv : x = v
            · subst hxv; simp [Function.update_same] at hx
            · rw [Function.update_noteq hxv] at hx
              exact hx.2
        have hunf : processNbrs label (v :: vs) stk st
            = processNbrs label vs (v :: stk)
              ⟨Function.update st.visited v true, Function.update st.labels v label⟩ := by
          simp [processNbrs, hv]
        have hmain := ih (v :: stk)
          ⟨Function.update st.visited v true, Function.update st.labels v label⟩
        rw [hunf]
        exact ⟨le_trans hmain.1 (le_of_lt hdrop),
          Or.inr (lt_of_le_of_lt hmain.1 hdrop)⟩
  rcases (key (nbrList sim τ u) rest s).2 with heq | hlt
  · rw [heq]
    exact Prod.Lex.right _ (by simp)
  · exact Prod.Lex.left _ _ hlt

/-- Fuel-indexed version of dfsLoop, used only to evaluate the loop on
concrete inputs by kernel reduction (the well-founded recursion of dfsLoop
does not reduce definitionally); it is proved to agree with dfsLoop
whenever the fuel is at least the loop's step count. -/
def dfsLoopFuel {n : Nat} (sim : Fin n → Fin n → ℚ) (τ : ℚ) (label : Int) :
    Nat → List (Fin n) → ClusterState n → ClusterState n
  | _, [], s => s
  | 0, _ :: _, s => s
  | fuel + 1, u :: rest, s =>
    dfsLoopFuel sim τ label fuel
      (processNbrs label (nbrList sim τ u) rest s).1
      (processNbrs label (nbrList sim τ u) rest s).2

/-- The outer for-loop of src/agents/dedup_agent.py lines 135-150: visit each
index in order; when it is unvisited, mark and label it, run the stack loop
from it, and advance the label counter.  Returns the final state together
with the number of labels used. -/
def outerLoop {n : Nat} (sim : Fin n → Fin n → ℚ) (τ : ℚ) :
    List (Fin n) → Int → ClusterState n → ClusterState n × Int
  | [], label, s => (s, label)
  | i :: rest, label, s =>
    if s.visited i then outerLoop sim τ rest label s
    else outerLoop sim τ rest (label + 1)
      (dfsLoop sim τ label [i]
        ⟨Function.update s.visited i true, Function.update s.labels i label⟩)

/-- Kernel-reducible twin of outerLoop, calling dfsLoopFuel with fuel n+1,
which always suffices; proved to agree with outerLoop. -/
def outerLoopFuel {n : Nat} (sim : Fin n → Fin n → ℚ) (τ : ℚ) :
    List (Fin n) → Int → ClusterState n → ClusterState n × Int
  | [], label, s => (s, label)
  | i :: rest, label, s =>
    if s.visited i then outerLoopFuel sim τ rest label s
    else outerLoopFuel sim τ rest (label + 1)
      (dfsLoopFuel sim τ label (n + 1) [i]
        ⟨Function.update s.visited i true, Function.update s.labels i label⟩)

/-- Kernel-reducible twin of clusterLabels. -/
def clusterLabelsFuel {n : Nat} (sim : Fin n → Fin n → ℚ) (τ : ℚ) : Fin n → Int :=
  (outerLoopFuel sim τ (List.finRange n) 0 (initState n)).1.labels

/-- The final label assignment of cluster_by_threshold as a function. -/
def clusterLabels {n : Nat} (sim : Fin n → Fin n → ℚ) (τ : ℚ) : Fin n → Int :=
  (outerLoop sim τ (List.finRange n) 0 (initState n)).1.labels

/-- The number of distinct labels produced (the final value of label). -/
def clusterCount {n : Nat} (sim : Fin n → Fin n → ℚ) (τ : ℚ) : Int :=
  (outerLoop sim τ (List.finRange n) 0 (initState n)).2

/-- DeduplicationAgent.cluster_by_threshold (src/agents/dedup_agent.py lines
114-152) on a precomputed similarity matrix: the returned labels list. -/
def cluster_by_threshold {n : Nat} (sim : Fin n → Fin n → ℚ) (τ : ℚ) : List Int :=
  (List.finRange n).map (clusterLabels sim τ)

/-- DeduplicationAgent.deduplicate (src/agents/dedup_agent.py lines 154-191)
with the similarity matrix of the batch passed explicitly (the embedding
computation of lines 171 feeding compute_similarity_matrix is numeric input;
the claims quantify over it).  Groups articles by label preserving input
order (the dict groups built on lines 175-177), iterates groups sorted by
label (line 180), and selects each representative with Python max on the
length key (line 182). -/
def deduplicate (τ : ℚ) (articles : List Article)
    (sim : Fin articles.length → Fin articles.length → ℚ) : List Story :=
  if articles.length = 0 then []
  else
    let labels := cluster_by_threshold sim τ
    let pairs := labels.zip articles
    let keys := sortLe (fun a b : Int => decide (a ≤ b)) labels.dedup
    keys.enum.map (fun p =>
      let members := (pairs.filter (fun q => decide (q.1 = p.2))).map (fun q => q.2)
      { story_id := p.1
        representative := (pyMaxBy artKey members).getD default
        article_ids := members.map (fun m => m.id)
        members := members })

/-- The edge relation of the spec (section 4.2): an edge joins i and j when
sim i j is at least the threshold; Reach is reachability along such edges.
Self-loops are absorbed by reflexivity, so restricting edges to distinct
endpoints yields the same relation. -/
def Reach {n : Nat} (sim : Fin n → Fin n → ℚ) (τ : ℚ) : Fin n → Fin n → Prop :=
  Relation.ReflTransGen (fun u v => τ ≤ sim u v)

/-- A visited set closed under edges: no edge leaves it. -/
def Closed {n : Nat} (sim : Fin n → Fin n → ℚ) (τ : ℚ) (vis : Fin n → Bool) : Prop :=
  ∀ u v, vis u = true → τ ≤ sim u v → vis v = true

/-- The invariant of the inner while loop of cluster_by_threshold, relative
to the state s0 before the current root i was marked: stack entries are
visited and reachable from the root, visited only grows, every newly
visited node is reachable from the root, newly visited nodes carry the
current label, and every newly visited node is on the stack or fully
expanded. -/
def DfsInv {n : Nat} (sim : Fin n → Fin n → ℚ) (τ : ℚ) (s0 : ClusterState n)
    (i : Fin n) (label : Int) (stack : List (Fin n)) (st : ClusterState n) : Prop :=
  (∀ v ∈ stack, st.visited v = true ∧ Reach sim τ i v) ∧
  (∀ v, s0.visited v = true → st.visited v = true) ∧
  st.visited i = true ∧
  (∀ v, st.visited v = true → s0.visited v = true ∨ Reach sim τ i v) ∧
  (∀ v, st.labels v =
    if st.visited v = true ∧ s0.visited v = false then label else s0.labels v) ∧
  (∀ u, st.visited u = true → s0.visited u = false →
    u ∈ stack ∨ ∀ v, τ ≤ sim u v → st.visited v = true)

/-- The invariant of the outer for loop of cluster_by_threshold: the
visited set is a union of whole components, labels of visited nodes are
the nonnegative integers below the counter, two visited nodes share a
label exactly when connected, every label below the counter is attained,
and unvisited nodes still hold -1. -/
def OuterInv {n : Nat} (sim : Fin n → Fin n → ℚ) (τ : ℚ) (label : Int)
    (s : ClusterState n) : Prop :=
  Closed sim τ s.visited ∧
  0 ≤ label ∧
  (∀ v, s.visited v = true → 0 ≤ s.labels v ∧ s.labels v < label) ∧
  (∀ u v, s.visited u = true → s.visited v = true →
    (s.labels u = s.labels v ↔ Reach sim τ u v)) ∧
  (∀ l : Int, 0 ≤ l → l < label → ∃ v, s.visited v = true ∧ s.labels v = l) ∧
  (∀ v, s.visited v = false → s.labels v = -1)

/-! ## StorageAgent embeddings (src/agents/storage_agent.py lines 184-237).

The embeddings sqlite table is modelled as the list of its rows in insertion
order (the autoincrement primary key orders rows by insertion).  A float32
blob of declared length dim is modelled by the list of its dim rationals;
the little-endian float32 encoding is a bijection at this level. -/

/-- One row of the embeddings table. -/
structure EmbRow where
  article_id : Int
  ns : String
  vector : List ℚ
  dim : Nat
deriving DecidableEq, Repr, Inhabited

/-- StorageAgent.save_embedding (src/agents/storage_agent.py lines 187-199):
a plain INSERT appending one row whose dim is the vector length. -/
def save_embedding (st : List EmbRow) (article_id : Int) (vector : List ℚ)
    (ns : String) : List EmbRow :=
  st ++ [⟨article_id, ns, vector, vector.length⟩]

/-- StorageAgent.load_embeddings (src/agents/storage_agent.py lines 201-215):
select the rows of the namespace in row order; when the stored dim is
truthy and disagrees with the decoded length, truncate to dim. -/
def load_embeddings (st : List EmbRow) (ns : String) : List (Int × List ℚ) :=
  (st.filter (fun r => r.ns = ns)).map (fun r =>
    (r.article_id, if r.dim ≠ 0 ∧ r.vector.length ≠ r.dim then r.vector.take r.dim
      else r.vector))

/-- Sum of squares, the square of np.linalg.norm. -/
def sumSq (v : List ℚ) : ℚ := (v.map (fun x => x * x)).sum

/-- Dot product of two equal-length vectors.  The shape check that numpy
performs before any product is modelled where the source performs it: in
search_by_vector, which returns none (the ValueError) when the stored rows
are ragged or the query length differs from the row dimension, so dotQ is
only ever applied to vectors of one length. -/
def dotQ (a b : List ℚ) : ℚ := ((a.zip b).map (fun p => p.1 * p.2)).sum

/-- The epsilon 1e-12 added to each norm denominator
(src/agents/storage_agent.py lines 232-233). -/
def epsQ : ℚ := mkRat 1 1000000000000

/-- The denominator used when normalizing a vector: its euclidean norm
(through the square-root model sqrtQ) plus epsilon. -/
def denomQ (sqrtQ : ℚ → ℚ) (v : List ℚ) : ℚ := sqrtQ (sumSq v) + epsQ

/-- v / (np.linalg.norm v + 1e-12), componentwise. -/
def normalizeQ (sqrtQ : ℚ → ℚ) (v : List ℚ) : List ℚ :=
  v.map (fun x => x / denomQ sqrtQ v)

/-- sims = M_norm.dot(q_norm): one cosine-with-epsilon score per stored row
(src/agents/storage_agent.py line 234). -/
def simScores (sqrtQ : ℚ → ℚ) (rows : List (Int × List ℚ)) (q : List ℚ) : List ℚ :=
  rows.map (fun r => dotQ (normalizeQ sqrtQ r.2) (normalizeQ sqrtQ q))

/-- The contract np.argsort guarantees for its result regardless of sort
kind: a permutation of the index list 0..n-1 along which the scores are
non-increasing (for argsort of the negated scores).  The default
quicksort (introsort) is NOT stable above numpy's small-array
insertion-sort cutoff, so nothing beyond this contract holds for the
order among equal scores on larger arrays; search_by_vector is therefore
parameterized by the argsort realization, constrained by this predicate. -/
def ArgsortSpec (scores : List ℚ) (idx : List Nat) : Prop :=
  idx.Perm (List.range scores.length) ∧
  idx.Pairwise (fun i j => scores.getD j 0 ≤ scores.getD i 0)

/-- The realization of np.argsort(-sims) (src/agents/storage_agent.py line
235) on arrays BELOW numpy's small-array cutoff, where the sort runs as a
stable insertion sort: indices ordered by strictly greater score first and
by lower index among equal scores.  It satisfies ArgsortSpec and is used
to instantiate concrete runs on such small arrays; on larger arrays numpy
guarantees only ArgsortSpec. -/
def argsortDesc (scores : List ℚ) : List Nat :=
  sortLe (fun i j => decide (scores.getD j 0 < scores.getD i 0 ∨
    (scores.getD i 0 = scores.getD j 0 ∧ i ≤ j))) (List.range scores.length)

/-- StorageAgent.search_by_vector (src/agents/storage_agent.py lines
220-237).  The result is an Option: none models the ValueError that
np.stack raises on a ragged namespace (rows of differing dimension are
reachable because save_embedding performs no dimension check) and that
the matrix-vector product raises when the query length differs from the
row dimension.  The empty-namespace early return precedes both checks, as
in the source.  The index order of np.argsort is the argsort parameter,
constrained in the theorems by ArgsortSpec. -/
def search_by_vector (sqrtQ : ℚ → ℚ) (argsort : List ℚ → List Nat)
    (st : List EmbRow) (query_vec : List ℚ) (top_k : Nat) (ns : String) :
    Option (List (Int × ℚ)) :=
  let data := load_embeddings st ns
  if data.length = 0 then some []
  else if data.any (fun r => r.2.length ≠ (data.getD 0 default).2.length) then none
  else if query_vec.length ≠ (data.getD 0 default).2.length then none
  else
    let sims := simScores sqrtQ data query_vec
    let idx := (argsort sims).take top_k
    some (idx.map (fun i => ((data.getD i default).1, sims.getD i 0)))

/-! ## FallbackEmbedder (src/agents/utils/fallback_embedder.py).

The sklearn TfidfVectorizer is an external collaborator; what the claims
depend on is its fitted vocabulary state.  We model its default analyzer
(lowercase words of at least two alphanumeric characters, vocabulary the
sorted distinct tokens of the fit corpus) and model the entry weights by
raw term counts, the term-frequency level of the spec (section 4.1 and the
glossary call the fallback a sparse term-frequency-based vectorization);
the claims settled here depend only on the fitted vocabulary, not on the
idf scaling of nonzero entries. -/

/-- Split a character stream into maximal alphanumeric words (accumulator
holds the current word reversed). -/
def splitWords : List Char → List Char → List (List Char)
  | [], cur => if cur.isEmpty then [] else [cur.reverse]
  | c :: rest, cur =>
    if c.isAlphanum then splitWords rest (c :: cur)
    else if cur.isEmpty then splitWords rest []
    else cur.reverse :: splitWords rest []

/-- Tokenization of the default TfidfVectorizer analyzer: lowercase,
keep words of length at least two. -/
def tokenizeText (text : String) : List String :=
  ((splitWords (lowerChars text.data) []).filter (fun w => 2 ≤ w.length)).map
    (fun w => String.mk w)

/-- Lexicographic comparison of strings by character code, the order in
which the vectorizer sorts its vocabulary. -/
def charListLeb : List Char → List Char → Bool
  | [], _ => true
  | _ :: _, [] => false
  | a :: as, b :: bs => if a = b then charListLeb as bs else decide (a < b)

/-- The fitted vocabulary: sorted distinct tokens of the corpus. -/
def buildVocab (texts : List String) : List String :=
  sortLe (fun a b => charListLeb a.data b.data) ((texts.flatMap tokenizeText).dedup)

/-- Occurrences of token w in text, as a rational entry of the vector. -/
def termCount (w : String) (text : String) : ℚ :=
  ((tokenizeText text).filter (fun t => t = w)).length

/-- vectorizer.transform: one vector per text over the fitted vocabulary. -/
def transformTexts (vocab : List String) (texts : List String) : List (List ℚ) :=
  texts.map (fun t => vocab.map (fun w => termCount w t))

/-- The state of one FallbackEmbedder instance: the _fitted flag and the
fitted vocabulary (src/agents/utils/fallback_embedder.py lines 10-12). -/
structure FallbackEmbedder where
  fitted : Bool
  vocab : List String
deriving DecidableEq, Repr

/-- FallbackEmbedder.__init__: unfitted, no vocabulary. -/
def FallbackEmbedder.init : FallbackEmbedder := ⟨false, []⟩

/-- FallbackEmbedder.fit (src/agents/utils/fallback_embedder.py lines 14-20):
an empty corpus returns without fitting; otherwise the vectorizer is fitted
and the _fitted flag set. -/
def FallbackEmbedder.fit (e : FallbackEmbedder) (texts : List String) :
    FallbackEmbedder :=
  if texts.length = 0 then e else ⟨true, buildVocab texts⟩

/-- FallbackEmbedder.encode (src/agents/utils/fallback_embedder.py lines
22-33): fit on the batch when not yet fitted, then transform the batch with
the (now frozen) vocabulary.  Returns the updated instance state with the
produced vectors. -/
def FallbackEmbedder.encode (e : FallbackEmbedder) (texts : List String) :
    FallbackEmbedder × List (List ℚ) :=
  let e1 := if e.fitted then e else e.fit texts
  (e1, transformTexts e1.vocab texts)

/-- The process-wide state relevant to the fallback embedder: the module
level _global_fallback of src/agents/utils/fallback_embedder.py line 37.
get_fallback_embedder (lines 39-41) returns this single instance, and
DeduplicationAgent.__init__ (src/agents/dedup_agent.py line 52) stores that
same reference, so every agent constructed in the process reads and mutates
this one instance. -/
structure ProcState where
  global_fallback : FallbackEmbedder
deriving DecidableEq, Repr

/-- The process state at interpreter start: a fresh unfitted singleton. -/
def ProcState.init : ProcState := ⟨FallbackEmbedder.init⟩

/-- An encode call made through any pipeline object (every
DeduplicationAgent and QueryAgent holds the same get_fallback_embedder
reference): it runs on, and writes back to, the shared singleton. -/
def agentEncode (p : ProcState) (texts : List String) :
    ProcState × List (List ℚ) :=
  let r := p.global_fallback.encode texts
  (⟨r.1⟩, r.2)

/-! ## QueryAgent (src/agents/query_agent.py). -/

/-- The transient query intent returned by QueryAgent.interpret_query
(src/agents/query_agent.py lines 92-97). -/
structure QueryIntent where
  query_type : String
  companies : List String
  sectors : List String
  regulators : List String
deriving DecidableEq, Repr

/-- The externally supplied entity vocabularies read by QueryAgent from
EntityExtractionAgent (src/agents/entity_extraction_agent.py lines 31-55):
the company keyword list, the regulator list, and the company-to-sector
map as an association list with distinct keys. -/
structure EntityVocab where
  company_keywords : List String
  regulators : List String
  sector_map : List (String × String)
deriving DecidableEq, Repr

/-- QueryAgent.interpret_query (src/agents/query_agent.py lines 49-97):
case-insensitive substring matching of companies and regulators, sector
inference through the company-to-sector map plus direct sector-name
matches, duplicate removal, and the company / sector / regulator / theme
priority.  Python builds the final lists through list(set(...)); a set is
modelled by a duplicate-free list, and all theorems about these fields are
at the level of membership, which the arbitrary iteration order of a
Python set does not affect. -/
def interpret_query (d : EntityVocab) (query : String) : QueryIntent :=
  let ql := lowerChars query.data
  let companies := d.company_keywords.filter (fun c => strContains ql (lowerChars c.data))
  let regulators := d.regulators.filter (fun r => strContains ql (lowerChars r.data))
  let sectors1 := companies.filterMap (fun c =>
    match d.sector_map.lookup c with
    | some sec => if sec = "" then none else some sec
    | none => none)
  let sectorVals := (d.sector_map.map (fun p => p.2)).dedup
  let sectors2 := sectorVals.filter (fun sec => strContains ql (lowerChars sec.data))
  let companiesU := companies.dedup
  let sectorsU := (sectors1 ++ sectors2).dedup
  let regulatorsU := regulators.dedup
  { query_type :=
      if companiesU = [] then
        if sectorsU = [] then
          if regulatorsU = [] then "theme" else "regulator"
        else "sector"
      else "company"
    companies := companiesU
    sectors := sectorsU
    regulators := regulatorsU }

/-- One semantic-search candidate (article_id, score) as returned by
search_by_vector and consumed by structured_filter. -/
structure SemResult where
  article_id : Int
  score : ℚ
deriving DecidableEq, Repr

/-- The entity tags of one article as read back by
StorageAgent.get_entities_for_article. -/
structure EntityTags where
  companies : List String
  sectors : List String
  regulators : List String
deriving DecidableEq, Repr, Inhabited

/-- The two sqlite tables structured_filter reads: articles (primary key id)
and entities (rows keyed by article_id), each as its row list. -/
structure QueryStore where
  articles : List Article
  entities : List (Int × EntityTags)
deriving DecidableEq, Repr

/-- StorageAgent.get_article (src/agents/storage_agent.py lines 102-108):
fetchone on the id, none when no row exists. -/
def get_article (store : QueryStore) (article_id : Int) : Option Article :=
  store.articles.find? (fun a => a.id = article_id)

/-- StorageAgent.get_entities_for_article (src/agents/storage_agent.py lines
159-165): fetchone on the article_id, none when no row exists. -/
def get_entities_for_article (store : QueryStore) (article_id : Int) :
    Option EntityTags :=
  (store.entities.find? (fun p => p.1 = article_id)).map (fun p => p.2)

/-- The ok flag computed for one candidate by QueryAgent.structured_filter
(src/agents/query_agent.py lines 139-161): the four query_type cases, with
the theme case keeping scores strictly above 0.50. -/
def keepCandidate (info : QueryIntent) (tags : EntityTags) (score : ℚ) : Bool :=
  if info.query_type = "company" then
    (info.companies.any (fun c => tags.companies.contains c)) ||
    (info.sectors.any (fun s => tags.sectors.contains s))
  else if info.query_type = "sector" then
    info.sectors.any (fun s => tags.sectors.contains s)
  else if info.query_type = "regulator" then
    info.regulators.any (fun rg => tags.regulators.contains rg)
  else decide (mkRat 1 2 < score)

/-- One surviving entry appended by structured_filter
(src/agents/query_agent.py lines 163-168). -/
structure FilterResult where
  article : Article
  entities : EntityTags
  score : ℚ
deriving DecidableEq, Repr

/-- QueryAgent.structured_filter (src/agents/query_agent.py lines 119-172):
for each candidate fetch the article (skipping candidates whose article is
missing), read its entity tags defaulting to the empty dict, keep it when
the ok flag holds, then sort survivors by descending semantic score with
the stable Python sorted. -/
def structured_filter (store : QueryStore) (semantic_results : List SemResult)
    (info : QueryIntent) : List FilterResult :=
  let out := semantic_results.filterMap (fun r =>
    match get_article store r.article_id with
    | none => none
    | some art =>
      let tags := (get_entities_for_article store r.article_id).getD ⟨[], [], []⟩
      if keepCandidate info tags r.score then some ⟨art, tags, r.score⟩ else none)
  sortLe (fun a b => decide (b.score ≤ a.score)) out

/-! ## Characterization of the inner neighbor loop -/

/-- processNbrs marks exactly the members of its (duplicate-free) neighbor
list as visited. -/
theorem processNbrs_visited {n : Nat} (label : Int) :
    ∀ (L : List (Fin n)), L.Nodup → ∀ (stk : List (Fin n)) (s : ClusterState n) (x : Fin n),
      (processNbrs label L stk s).2.visited x = (s.visited x || decide (x ∈ L)) := by
  intro L
  induction L with
  | nil => intro _ stk s x; simp [processNbrs]
  | cons v vs ih =>
    intro hN stk s x
    rcases List.nodup_cons.mp hN with ⟨hv_not, hvsN⟩
    by_cases hv : s.visited v = true
    · rw [show processNbrs label (v :: vs) stk s = processNbrs label vs stk s by
        simp [processNbrs, hv]]
      rw [ih hvsN stk s x]
      by_cases hxv : x = v
      · subst hxv; simp [hv]
      · simp [List.mem_cons, hxv]
    · rw [show processNbrs label (v :: vs) stk s = processNbrs label vs (v :: stk)
          ⟨Function.update s.visited v true, Function.update s.labels v label⟩ by
        simp [processNbrs, hv]]
      rw [ih hvsN]
      by_cases hxv : x = v
      · subst hxv; simp [Function.update_same]
      · simp [Function.update_noteq hxv, List.mem_cons, hxv]

/-- processNbrs labels exactly the previously unvisited members of its
neighbor list with the current label. -/
theorem processNbrs_labels {n : Nat} (label : Int) :
    ∀ (L : List (Fin n)), L.Nodup → ∀ (stk : List (Fin n)) (s : ClusterState n) (x : Fin n),
      (processNbrs label L stk s).2.labels x =
        if s.visited x = false ∧ x ∈ L then label else s.labels x := by
  intro L
  induction L with
  | nil => intro _ stk s x; simp [processNbrs]
  | cons v vs ih =>
    intro hN stk s x
    rcases List.nodup_cons.mp hN with ⟨hv_not, hvsN⟩
    by_cases hv : s.visited v = true
    · rw [show processNbrs label (v :: vs) stk s = processNbrs label vs stk s by
        simp [processNbrs, hv]]
      rw [ih hvsN stk s x]
      by_cases hxv : x = v
      · subst hxv
        simp [hv, List.mem_cons]
      · simp [List.mem_cons, hxv]
    · rw [show processNbrs label (v :: vs) stk s = processNbrs label vs (v :: stk)
          ⟨Function.update s.visited v true, Function.update s.labels v label⟩ by
        simp [processNbrs, hv]]
      rw [ih hvsN]
      by_cases hxv : x = v
      · subst hxv
        simp [Function.update_same, hv]
      · simp only [Function.update_noteq hxv, List.mem_cons, hxv, false_or]

/-- processNbrs pushes exactly the previously unvisited members of its
neighbor list, in reverse order, on top of the stack. -/
theorem processNbrs_stack {n : Nat} (label : Int) :
    ∀ (L : List (Fin n)), L.Nodup → ∀ (stk : List (Fin n)) (s : ClusterState n),
      (processNbrs label L stk s).1 =
        (L.filter (fun v => s.visited v = false)).reverse ++ stk := by
  intro L
  induction L with
  | nil => intro _ stk s; simp [processNbrs]
  | cons v vs ih =>
    intro hN stk s
    rcases List.nodup_cons.mp hN with ⟨hv_not, hvsN⟩
    by_cases hv : s.visited v = true
    · rw [show processNbrs label (v :: vs) stk s = processNbrs label vs stk s by
        simp [processNbrs, hv]]
      rw [ih hvsN stk s]
      simp [List.filter_cons, hv]
    · rw [show processNbrs label (v :: vs) stk s = processNbrs label vs (v :: stk)
          ⟨Function.update s.visited v true, Function.update s.labels v label⟩ by
        simp [processNbrs, hv]]
      rw [ih hvsN]
      have hfilt : vs.filter
          (fun x => (⟨Function.update s.visited v true,
            Function.update s.labels v label⟩ : ClusterState n).visited x = false)
          = vs.filter (fun x => s.visited x = false) := by
        apply List.filter_congr
        intro x hx
        have hxv : x ≠ v := fun h => hv_not (h ▸ hx)
        simp [Function.update_noteq hxv]
      rw [hfilt]
      simp [List.filter_cons, hv]

/-! ## Fuel equivalence, enabling kernel evaluation on concrete inputs -/

/-- Marking one unvisited node lowers the unvisited count by exactly one. -/
theorem unvisitedCount_update {n : Nat} (vis : Fin n → Bool) (v : Fin n)
    (hv : vis v = false) :
    unvisitedCount (Function.update vis v true) + 1 = unvisitedCount vis := by
  have hset : (Finset.univ.filter (fun i => Function.update vis v true i = false))
      = (Finset.univ.filter (fun i => vis i = false)).erase v := by
    ext x
    simp only [Finset.mem_filter, Finset.mem_erase, Finset.mem_univ, true_and]
    constructor
    · intro hx
      by_cases hxv : x = v
      · subst hxv; simp [Function.update_same] at hx
      · exact ⟨hxv, by rwa [Function.update_noteq hxv] at hx⟩
    · intro ⟨hxv, hx⟩
      rwa [Function.update_noteq hxv]
  rw [unvisitedCount, hset]
  exact Finset.card_erase_add_one
    (Finset.mem_filter.mpr ⟨Finset.mem_univ v, hv⟩)

/-- processNbrs preserves the sum of the unvisited count and the stack
length: every push marks one new node. -/
theorem processNbrs_measure {n : Nat} (label : Int) :
    ∀ (L : List (Fin n)), ∀ (stk : List (Fin n)) (s : ClusterState n),
      unvisitedCount (processNbrs label L stk s).2.visited +
        (processNbrs label L stk s).1.length
      = unvisitedCount s.visited + stk.length := by
  intro L
  induction L with
  | nil => intro stk s; simp [processNbrs]
  | cons v vs ih =>
    intro stk s
    by_cases hv : s.visited v = true
    · rw [show processNbrs label (v :: vs) stk s = processNbrs label vs stk s by
        simp [processNbrs, hv]]
      exact ih stk s
    · rw [show processNbrs label (v :: vs) stk s = processNbrs label vs (v :: stk)
          ⟨Function.update s.visited v true, Function.update s.labels v label⟩ by
        simp [processNbrs, hv]]
      rw [ih (v :: stk) _]
      have hb : s.visited v = false := by simpa using hv
      have := unvisitedCount_update s.visited v hb
      simp only [List.length_cons]
      omega

/-- With fuel at least the unvisited count plus the stack length, the fuel
version of the while loop computes dfsLoop. -/
theorem dfsLoopFuel_eq {n : Nat} (sim : Fin n → Fin n → ℚ) (τ : ℚ) (label : Int) :
    ∀ (fuel : Nat) (stack : List (Fin n)) (s : ClusterState n),
      unvisitedCount s.visited + stack.length ≤ fuel →
      dfsLoopFuel sim τ label fuel stack s = dfsLoop sim τ label stack s := by
  intro fuel
  induction fuel with
  | zero =>
    intro stack s hle
    match stack with
    | [] => rw [dfsLoopFuel, dfsLoop]
    | u :: rest => simp at hle
  | succ fuel ih =>
    intro stack s hle
    match stack with
    | [] => rw [dfsLoopFuel, dfsLoop]
    | u :: rest =>
      rw [dfsLoopFuel, dfsLoop]
      apply ih
      have := processNbrs_measure label (nbrList sim τ u) rest s
      simp only [List.length_cons] at hle
      omega

/-- The unvisited count never exceeds n. -/
theorem unvisitedCount_le {n : Nat} (vis : Fin n → Bool) : unvisitedCount vis ≤ n := by
  calc unvisitedCount vis ≤ Finset.univ.card := Finset.card_filter_le _ _
    _ = n := by simp

/-- outerLoopFuel computes outerLoop. -/
theorem outerLoopFuel_eq {n : Nat} (sim : Fin n → Fin n → ℚ) (τ : ℚ) :
    ∀ (todo : List (Fin n)) (label : Int) (s : ClusterState n),
      outerLoopFuel sim τ todo label s = outerLoop sim τ todo label s := by
  intro todo
  induction todo with
  | nil => intro label s; rw [outerLoopFuel, outerLoop]
  | cons i rest ih =>
    intro label s
    rw [outerLoopFuel, outerLoop]
    by_cases hi : s.visited i = true
    · simp only [hi, if_true]
      exact ih label s
    · simp only [hi, Bool.false_eq_true, if_false]
      rw [dfsLoopFuel_eq]
      · exact ih _ _
      · simp only [List.length_cons, List.length_nil]
        have := unvisitedCount_le (Function.update s.visited i true)
        omega

/-- clusterLabelsFuel computes clusterLabels. -/
theorem clusterLabelsFuel_eq {n : Nat} (sim : Fin n → Fin n → ℚ) (τ : ℚ) :
    clusterLabelsFuel sim τ = clusterLabels sim τ := by
  rw [clusterLabelsFuel, clusterLabels, outerLoopFuel_eq]

/-- cluster_by_threshold through the kernel-reducible twin. -/
theorem cluster_by_threshold_fuel {n : Nat} (sim : Fin n → Fin n → ℚ) (τ : ℚ) :
    cluster_by_threshold sim τ = (List.finRange n).map (clusterLabelsFuel sim τ) := by
  rw [cluster_by_threshold, clusterLabelsFuel_eq]

/-! ## Properties of the stable insertion sort model -/

/-- insertLe produces a permutation of consing the element. -/
theorem insertLe_perm {α : Type} (le : α → α → Bool) (x : α) :
    ∀ l : List α, (insertLe le x l).Perm (x :: l) := by
  intro l
  induction l with
  | nil => exact List.Perm.refl _
  | cons y ys ih =>
    by_cases h : le y x = true
    · rw [show insertLe le x (y :: ys) = y :: insertLe le x ys by simp [insertLe, h]]
      exact (ih.cons y).trans (List.Perm.swap x y ys)
    · rw [show insertLe le x (y :: ys) = x :: y :: ys by simp [insertLe, h]]

/-- sortLe permutes its input. -/
theorem sortLe_perm {α : Type} (le : α → α → Bool) (l : List α) :
    (sortLe le l).Perm l := by
  suffices h : ∀ (l acc : List α),
      (l.foldl (fun acc x => insertLe le x acc) acc).Perm (l ++ acc) by
    simpa using h l []
  intro l
  induction l with
  | nil => intro acc; simp
  | cons x xs ih =>
    intro acc
    have h1 : (x :: xs).foldl (fun acc x => insertLe le x acc) acc
        = xs.foldl (fun acc x => insertLe le x acc) (insertLe le x acc) := by
      simp [List.foldl_cons]
    rw [h1]
    exact ((ih _).trans (List.Perm.append_left xs (insertLe_perm le x acc))).trans
      List.perm_middle

/-- Membership in the sorted list. -/
theorem mem_sortLe {α : Type} (le : α → α → Bool) (l : List α) (a : α) :
    a ∈ sortLe le l ↔ a ∈ l :=
  (sortLe_perm le l).mem_iff

/-- Inserting into a le-pairwise list keeps it le-pairwise, given a total
transitive comparator. -/
theorem insertLe_pairwise {α : Type} (le : α → α → Bool)
    (htrans : ∀ a b c, le a b = true → le b c = true → le a c = true)
    (htot : ∀ a b, le a b = true ∨ le b a = true) (x : α) :
    ∀ l : List α, l.Pairwise (fun a b => le a b = true) →
      (insertLe le x l).Pairwise (fun a b => le a b = true) := by
  intro l
  induction l with
  | nil => intro _; simp [insertLe]
  | cons y ys ih =>
    intro hl
    rcases List.pairwise_cons.mp hl with ⟨hy, hys⟩
    by_cases h : le y x = true
    · rw [show insertLe le x (y :: ys) = y :: insertLe le x ys by simp [insertLe, h]]
      refine List.pairwise_cons.mpr ⟨?_, ih hys⟩
      intro b hb
      rcases List.mem_cons.mp ((insertLe_perm le x ys).mem_iff.mp hb) with rfl | hbys
      · exact h
      · exact hy b hbys
    · rw [show insertLe le x (y :: ys) = x :: y :: ys by simp [insertLe, h]]
      refine List.pairwise_cons.mpr ⟨?_, hl⟩
      intro b hb
      have hxy : le x y = true := (htot x y).resolve_right h
      rcases List.mem_cons.mp hb with rfl | hbys
      · exact hxy
      · exact htrans x y b hxy (hy b hbys)

/-- sortLe sorts, given a total transitive comparator. -/
theorem sortLe_pairwise {α : Type} (le : α → α → Bool)
    (htrans : ∀ a b c, le a b = true → le b c = true → le a c = true)
    (htot : ∀ a b, le a b = true ∨ le b a = true) (l : List α) :
    (sortLe le l).Pairwise (fun a b => le a b = true) := by
  suffices h : ∀ (l acc : List α), acc.Pairwise (fun a b => le a b = true) →
      (l.foldl (fun acc x => insertLe le x acc) acc).Pairwise
        (fun a b => le a b = true) by
    exact h l [] List.Pairwise.nil
  intro l
  induction l with
  | nil => intro acc hacc; simpa using hacc
  | cons x xs ih =>
    intro acc hacc
    simp only [List.foldl_cons]
    exact ih _ (insertLe_pairwise le htrans htot x acc hacc)

/-! ## Claim C2: embedding write semantics -/

/-- C2 counterexample: save_embedding is a plain INSERT with no dimension
check.  Writing twice for the pair (1, default), the second time with a
different dimension, succeeds and leaves two stored embeddings for the
pair; load_embeddings returns both rows, so re-insertion does not replace
the prior vector and no DimensionMismatch is raised. -/
theorem c2_two_rows_per_pair :
    load_embeddings
      (save_embedding (save_embedding [] 1 [1, 2] "default") 1 [1, 2, 3] "default")
      "default"
    = [(1, [1, 2]), (1, [1, 2, 3])] := by decide

/-- C2 amended: a save appends one row; loading a namespace returns one
entry per row of that namespace in insertion order, each saved vector read
back intact (a row written by save_embedding always has dim equal to its
vector length, so the load-time truncation never fires for it); duplicate
(article_id, namespace) pairs accumulate and dimension mismatches are
not detected. -/
theorem c2_save_appends (st : List EmbRow) (article_id : Int) (vector : List ℚ)
    (ns : String) :
    load_embeddings (save_embedding st article_id vector ns) ns
      = load_embeddings st ns ++ [(article_id, vector)] := by
  simp [load_embeddings, save_embedding, List.filter_append]

/-! ## Claim C3: search ordering and tie-breaking -/

/-- Two equal scores argsort to index order, not article order. -/
theorem argsortDesc_pair (s : ℚ) : argsortDesc [s, s] = [0, 1] := by
  have h01 : decide ([s, s].getD 1 0 < [s, s].getD 0 0 ∨
      ([s, s].getD 0 0 = [s, s].getD 1 0 ∧ (0 : Nat) ≤ 1)) = true := by
    simp
  simp only [argsortDesc, sortLe, List.length_cons, List.length_nil]
  show List.foldl _ [] [0, 1] = [0, 1]
  simp only [List.foldl_cons, List.foldl_nil, insertLe, h01]
  simp [insertLe]

/-- The lexicographic comparator underlying the small-array realization is
transitive and total, so argsortDesc is pairwise lex-sorted: strictly
greater scores come first and equal scores keep ascending position order. -/
theorem argsortDesc_pairwise (scores : List ℚ) :
    (argsortDesc scores).Pairwise (fun i j =>
      scores.getD j 0 < scores.getD i 0 ∨
      (scores.getD i 0 = scores.getD j 0 ∧ i ≤ j)) := by
  have h := sortLe_pairwise
    (fun i j : Nat => decide (scores.getD j 0 < scores.getD i 0 ∨
      (scores.getD i 0 = scores.getD j 0 ∧ i ≤ j)))
    (by
      intro a b c hab hbc
      rw [decide_eq_true_eq] at hab hbc ⊢
      rcases hab with hab | ⟨hab, hab2⟩
      · rcases hbc with hbc | ⟨hbc, hbc2⟩
        · exact Or.inl (lt_trans hbc hab)
        · exact Or.inl (hbc ▸ hab)
      · rcases hbc with hbc | ⟨hbc, hbc2⟩
        · exact Or.inl (hab ▸ hbc)
        · exact Or.inr ⟨hab.trans hbc, le_trans hab2 hbc2⟩)
    (by
      intro a b
      rw [decide_eq_true_eq, decide_eq_true_eq]
      rcases lt_trichotomy (scores.getD a 0) (scores.getD b 0) with h | h | h
      · exact Or.inr (Or.inl h)
      · rcases Nat.le_total a b with hab | hba
        · exact Or.inl (Or.inr ⟨h, hab⟩)
        · exact Or.inr (Or.inr ⟨h.symm, hba⟩)
      · exact Or.inl (Or.inl h))
    (List.range scores.length)
  rw [argsortDesc]
  exact h.imp (fun hab => decide_eq_true_eq.mp hab)

/-- The small-array realization meets the argsort contract. -/
theorem argsortDesc_spec (scores : List ℚ) :
    ArgsortSpec scores (argsortDesc scores) := by
  constructor
  · rw [argsortDesc]
    exact sortLe_perm _ _
  · exact (argsortDesc_pairwise scores).imp (fun h => by
      rcases h with h | ⟨h, -⟩
      · exact le_of_lt h
      · exact le_of_eq h.symm)

/-- A search that returns did so either on the empty namespace or through
the argsort-take-map pipeline. -/
theorem search_by_vector_some (sqrtQ : ℚ → ℚ) (argsort : List ℚ → List Nat)
    (st : List EmbRow) (q : List ℚ) (top_k : Nat) (ns : String)
    (out : List (Int × ℚ))
    (hout : search_by_vector sqrtQ argsort st q top_k ns = some out) :
    out = [] ∨
    out = ((argsort (simScores sqrtQ (load_embeddings st ns) q)).take top_k).map
      (fun i => (((load_embeddings st ns).getD i default).1,
        (simScores sqrtQ (load_embeddings st ns) q).getD i 0)) := by
  simp only [search_by_vector] at hout
  by_cases h0 : (load_embeddings st ns).length = 0
  · rw [if_pos h0] at hout
    exact Or.inl (Option.some_inj.mp hout).symm
  · rw [if_neg h0] at hout
    by_cases h1 : (load_embeddings st ns).any
        (fun r => decide (r.2.length ≠
          ((load_embeddings st ns).getD 0 default).2.length)) = true
    · rw [if_pos h1] at hout
      exact Option.noConfusion hout
    · rw [if_neg h1] at hout
      by_cases h2 : q.length ≠ ((load_embeddings st ns).getD 0 default).2.length
      · rw [if_pos h2] at hout
        exact Option.noConfusion hout
      · rw [if_neg h2] at hout
        exact Or.inr (Option.some_inj.mp hout).symm

/-- When every stored row of the namespace has the query dimension, the
search returns (this is the case in which np.stack and the dot product do
not raise). -/
theorem search_by_vector_returns (sqrtQ : ℚ → ℚ) (argsort : List ℚ → List Nat)
    (st : List EmbRow) (q : List ℚ) (top_k : Nat) (ns : String)
    (hdim : ∀ r ∈ load_embeddings st ns, r.2.length = q.length) :
    ∃ out, search_by_vector sqrtQ argsort st q top_k ns = some out := by
  simp only [search_by_vector]
  by_cases h0 : (load_embeddings st ns).length = 0
  · rw [if_pos h0]
    exact ⟨[], rfl⟩
  · have hhead : (load_embeddings st ns).getD 0 default ∈ load_embeddings st ns := by
      rcases hd : load_embeddings st ns with _ | ⟨r, rest⟩
      · rw [hd] at h0
        simp at h0
      · simp
    have h1 : ¬ ((load_embeddings st ns).any
        (fun r => decide (r.2.length ≠
          ((load_embeddings st ns).getD 0 default).2.length)) = true) := by
      intro hc
      rcases List.any_eq_true.mp hc with ⟨r, hr, hpr⟩
      rw [decide_eq_true_eq] at hpr
      exact hpr ((hdim r hr).trans (hdim _ hhead).symm)
    have h2 : ¬ (q.length ≠ ((load_embeddings st ns).getD 0 default).2.length) := by
      intro hc
      exact hc (hdim _ hhead).symm
    rw [if_neg h0, if_neg h1, if_neg h2]
    exact ⟨_, rfl⟩

/-- C3 counterexample: two articles stored with identical one-dimensional
vectors, article 5 inserted before article 3, a store small enough that
np.argsort factually runs its stable insertion sort (the argsortDesc
realization).  Searching with the same vector produces a tie on the
score, and the results come back in storage order (5 before 3), not in
ascending article_id order (3 before 5) as the claim states. -/
theorem c3_tie_storage_order :
    ((search_by_vector id argsortDesc
        (save_embedding (save_embedding [] 5 [1] "default") 3 [1] "default")
        [1] 2 "default").getD []).map Prod.fst = [5, 3] ∧
    (((search_by_vector id argsortDesc
        (save_embedding (save_embedding [] 5 [1] "default") 3 [1] "default")
        [1] 2 "default").getD []).getD 0 default).2 =
    (((search_by_vector id argsortDesc
        (save_embedding (save_embedding [] 5 [1] "default") 3 [1] "default")
        [1] 2 "default").getD []).getD 1 default).2 := by
  have hdata : load_embeddings
      (save_embedding (save_embedding [] 5 [1] "default") 3 [1] "default")
      "default" = [(5, [1]), (3, [1])] := by decide
  have hout : search_by_vector id argsortDesc
      (save_embedding (save_embedding [] 5 [1] "default") 3 [1] "default")
      [1] 2 "default"
      = some [(5, dotQ (normalizeQ id [1]) (normalizeQ id [1])),
              (3, dotQ (normalizeQ id [1]) (normalizeQ id [1]))] := by
    simp only [search_by_vector, hdata]
    rw [if_neg (by decide), if_neg (by decide), if_neg (by decide)]
    rw [show simScores id [(5, [1]), (3, [1])] [1]
        = [dotQ (normalizeQ id [1]) (normalizeQ id [1]),
           dotQ (normalizeQ id [1]) (normalizeQ id [1])] from rfl]
    rw [argsortDesc_pair]
    rfl
  rw [hout]
  exact ⟨rfl, rfl⟩

/-- C3 amended: under the contract that np.argsort guarantees for every
sort kind (a permutation of the indices with non-increasing scores;
stability is NOT guaranteed above the small-array cutoff), a search that
returns yields at most top_k (article_id, score) pairs in non-increasing
score order.  The order among equal scores is whatever the unstable sort
produces and is never a function of article_id; on stores below the
cutoff, where the sort is the stable argsortDesc realization, ties come
back in storage row order (c3_tie_storage_order). -/
theorem c3_search_order (sqrtQ : ℚ → ℚ) (argsort : List ℚ → List Nat)
    (st : List EmbRow) (q : List ℚ) (top_k : Nat) (ns : String)
    (hspec : ArgsortSpec (simScores sqrtQ (load_embeddings st ns) q)
      (argsort (simScores sqrtQ (load_embeddings st ns) q)))
    (out : List (Int × ℚ))
    (hout : search_by_vector sqrtQ argsort st q top_k ns = some out) :
    out.length ≤ top_k ∧
    (out.map Prod.snd).Pairwise (fun a b => b ≤ a) := by
  rcases search_by_vector_some sqrtQ argsort st q top_k ns out hout with heq | hmap
  · subst heq
    exact ⟨Nat.zero_le _, List.Pairwise.nil⟩
  · subst hmap
    constructor
    · rw [List.length_map]
      exact List.length_take_le _ _
    · rw [List.map_map, List.pairwise_map]
      exact hspec.2.sublist (List.take_sublist top_k _)

/-- C3 witness for the amended theorem: the empty store with the
argsortDesc realization, which satisfies the argsort contract; the search
returns the empty result, of length at most 5 and trivially sorted. -/
theorem c3_search_order_witness :
    ArgsortSpec (simScores id (load_embeddings [] "default") [1])
      (argsortDesc (simScores id (load_embeddings [] "default") [1])) ∧
    search_by_vector id argsortDesc [] [1] 5 "default" = some [] ∧
    (([] : List (Int × ℚ)).length ≤ 5 ∧
      (([] : List (Int × ℚ)).map Prod.snd).Pairwise (fun a b => b ≤ a)) :=
  ⟨argsortDesc_spec _, rfl,
    c3_search_order id argsortDesc [] [1] 5 "default" (argsortDesc_spec _) [] rfl⟩

/-! ## Claim C4: zero-vector safety of the search -/

/-- Every normalization denominator is strictly positive: the norm model is
nonnegative on the nonnegative sum of squares and the epsilon is positive,
so no division by zero occurs even for all-zero vectors. -/
theorem denomQ_pos (sqrtQ : ℚ → ℚ) (hsq : ∀ x : ℚ, 0 ≤ x → 0 ≤ sqrtQ x)
    (v : List ℚ) : 0 < denomQ sqrtQ v := by
  have hss : 0 ≤ sumSq v := by
    apply List.sum_nonneg
    intro x hx
    rcases List.mem_map.mp hx with ⟨y, -, rfl⟩
    exact mul_self_nonneg y
  have heps : 0 < epsQ := by decide
  have := hsq (sumSq v) hss
  rw [denomQ]
  exact add_pos_of_nonneg_of_pos this heps

/-- Scores indexed through the data list. -/
theorem simScores_getD (sqrtQ : ℚ → ℚ) (rows : List (Int × List ℚ)) (q : List ℚ)
    (i : Nat) (hi : i < rows.length) :
    (simScores sqrtQ rows q).getD i 0
      = dotQ (normalizeQ sqrtQ (rows.getD i default).2) (normalizeQ sqrtQ q) := by
  rw [simScores]
  rw [List.getD_eq_getElem _ _ (by simpa using hi), List.getD_eq_getElem _ _ hi]
  simp

/-- A dot product against an all-zero right factor is zero. -/
theorem dotQ_zero_right (a b : List ℚ) (hb : ∀ y ∈ b, y = 0) : dotQ a b = 0 := by
  rw [dotQ]
  apply List.sum_eq_zero
  intro x hx
  rcases List.mem_map.mp hx with ⟨p, hp, rfl⟩
  have := hb p.2 (List.of_mem_zip hp).2
  rw [this, mul_zero]

/-- C4 counterexample: the namespace made ragged by the unchecked
save_embedding (one row of dimension 2, one of dimension 3, exactly the
store of c2_two_rows_per_pair) searched with the all-zero query [0, 0]
raises in the source (np.stack ValueError) rather than returning scores:
the model returns none, refuting the claim that search_by_vector returns
normally for every set of stored vectors and every query vector. -/
theorem c4_ragged_raises :
    search_by_vector id argsortDesc
      (save_embedding (save_embedding [] 1 [1, 2] "default") 1 [1, 2, 3] "default")
      [0, 0] 5 "default" = none := by
  decide

/-- C4 amended: the epsilon makes every normalization denominator
strictly positive, so no division by zero occurs even for all-zero query
or stored vectors; whenever every stored row of the namespace has the
query dimension (the case where np.stack and the dot do not raise) the
search returns, and every returned score is the exact finite rational
cosine-with-epsilon value of some stored row, an all-zero query giving
score 0.  On a ragged namespace or a query of mismatched dimension the
source raises ValueError instead (c4_ragged_raises). -/
theorem c4_zero_vector_epsilon (sqrtQ : ℚ → ℚ) (argsort : List ℚ → List Nat)
    (hsq : ∀ x : ℚ, 0 ≤ x → 0 ≤ sqrtQ x)
    (st : List EmbRow) (q : List ℚ) (top_k : Nat) (ns : String)
    (hspec : ArgsortSpec (simScores sqrtQ (load_embeddings st ns) q)
      (argsort (simScores sqrtQ (load_embeddings st ns) q))) :
    (∀ v : List ℚ, 0 < denomQ sqrtQ v) ∧
    ((∀ r ∈ load_embeddings st ns, r.2.length = q.length) →
      ∃ out, search_by_vector sqrtQ argsort st q top_k ns = some out) ∧
    (∀ out, search_by_vector sqrtQ argsort st q top_k ns = some out →
      ∀ r ∈ out,
        (∃ i, i < (load_embeddings st ns).length ∧
          r.2 = dotQ (normalizeQ sqrtQ ((load_embeddings st ns).getD i default).2)
            (normalizeQ sqrtQ q)) ∧
        ((∀ y ∈ q, y = 0) → r.2 = 0)) := by
  refine ⟨denomQ_pos sqrtQ hsq, search_by_vector_returns sqrtQ argsort st q top_k ns, ?_⟩
  intro out hout r hr
  rcases search_by_vector_some sqrtQ argsort st q top_k ns out hout with heq | hmap
  · subst heq
    exact absurd hr (List.not_mem_nil r)
  · subst hmap
    rcases List.mem_map.mp hr with ⟨i, hi, rfl⟩
    have hi2 : i ∈ argsort (simScores sqrtQ (load_embeddings st ns) q) :=
      List.mem_of_mem_take hi
    have hi3 : i < (load_embeddings st ns).length := by
      have hmem := hspec.1.mem_iff.mp hi2
      rw [List.mem_range, simScores, List.length_map] at hmem
      exact hmem
    refine ⟨⟨i, hi3, simScores_getD sqrtQ _ _ i hi3⟩, ?_⟩
    intro hq
    show (simScores sqrtQ (load_embeddings st ns) q).getD i 0 = 0
    rw [simScores_getD sqrtQ _ _ i hi3]
    apply dotQ_zero_right
    intro y hy
    rcases List.mem_map.mp hy with ⟨x, hx, rfl⟩
    rw [hq x hx, zero_div]

/-- C4 witness for the amended theorem: the identity square-root model,
the argsortDesc realization (which satisfies the argsort contract), the
empty store and the all-zero query [0]. -/
theorem c4_zero_vector_epsilon_witness :
    (∀ x : ℚ, 0 ≤ x → 0 ≤ id x) ∧
    ArgsortSpec (simScores id (load_embeddings [] "default") [0])
      (argsortDesc (simScores id (load_embeddings [] "default") [0])) ∧
    ((∀ v : List ℚ, 0 < denomQ id v) ∧
     ((∀ r ∈ load_embeddings [] "default", r.2.length = ([0] : List ℚ).length) →
       ∃ out, search_by_vector id argsortDesc [] [0] 5 "default" = some out) ∧
     (∀ out, search_by_vector id argsortDesc [] [0] 5 "default" = some out →
       ∀ r ∈ out,
         (∃ i, i < (load_embeddings [] "default").length ∧
           r.2 = dotQ (normalizeQ id ((load_embeddings [] "default").getD i default).2)
             (normalizeQ id [0])) ∧
         ((∀ y ∈ ([0] : List ℚ), y = 0) → r.2 = 0))) :=
  ⟨fun _ h => h, argsortDesc_spec _,
    c4_zero_vector_epsilon id argsortDesc (fun _ h => h) [] [0] 5 "default"
      (argsortDesc_spec _)⟩

/-! ## Claim C7: the fallback embedder singleton -/

/-- C7 counterexample: the encode results one pipeline produces for a batch
depend on whether another pipeline encoded first.  Encoding the batch
containing only the text gamma delta from a fresh process yields
two-dimensional vectors (the vocabulary is fitted on that batch); encoding
the same batch after another agent has encoded one two three yields
three-dimensional vectors over the foreign vocabulary, because both
pipelines share the module-level singleton. -/
theorem c7_interference :
    (agentEncode ProcState.init ["gamma delta"]).2 ≠
      (agentEncode (agentEncode ProcState.init ["one two three"]).1
        ["gamma delta"]).2 := by
  intro h
  have hlen := congrArg (fun l => (l.getD 0 []).length) h
  simp only at hlen
  have h1 : ((agentEncode ProcState.init ["gamma delta"]).2.getD 0 []).length = 2 := by
    decide
  have h2 : (((agentEncode (agentEncode ProcState.init ["one two three"]).1
      ["gamma delta"]).2).getD 0 []).length = 3 := by
    decide
  rw [h1, h2] at hlen
  exact absurd hlen (by decide)

/-- C7 amended: the fitted vocabulary lives in the single module-level
instance that get_fallback_embedder hands to every pipeline object, so the
state is process-wide, not per instance: once any pipeline's encode has
left the shared embedder fitted, a subsequent encode by any other pipeline
reuses the shared frozen vocabulary (it does not refit) and its output is
exactly the transform of its texts under that shared vocabulary. -/
theorem c7_shared_singleton (p : ProcState) (t1 t2 : List String)
    (hfit : (p.global_fallback.encode t2).1.fitted = true) :
    (agentEncode (agentEncode p t2).1 t1).1 = (agentEncode p t2).1 ∧
    (agentEncode (agentEncode p t2).1 t1).2
      = transformTexts (agentEncode p t2).1.global_fallback.vocab t1 := by
  constructor
  · show (⟨_⟩ : ProcState) = _
    rw [agentEncode]
    simp only [agentEncode]
    rw [FallbackEmbedder.encode]
    simp only [hfit, if_true]
  · rw [agentEncode]
    simp only [agentEncode]
    rw [FallbackEmbedder.encode]
    simp only [hfit, if_true]

/-- C7 witness for the amended theorem: after an encode of the nonempty
batch one two three from the fresh process state, the shared embedder is
fitted, and a second pipeline's encode of gamma delta transforms under the
shared vocabulary. -/
theorem c7_shared_singleton_witness :
    ((ProcState.init.global_fallback.encode ["one two three"]).1.fitted = true) ∧
    ((agentEncode (agentEncode ProcState.init ["one two three"]).1 ["gamma delta"]).1
        = (agentEncode ProcState.init ["one two three"]).1 ∧
     (agentEncode (agentEncode ProcState.init ["one two three"]).1 ["gamma delta"]).2
        = transformTexts
            (agentEncode ProcState.init ["one two three"]).1.global_fallback.vocab
            ["gamma delta"]) :=
  ⟨by decide, c7_shared_singleton ProcState.init ["gamma delta"] ["one two three"]
    (by decide)⟩

/-! ## Claim C8: query interpretation precedence -/

/-- The companies field of the interpretation, definitionally. -/
theorem interpret_query_companies (d : EntityVocab) (q : String) :
    (interpret_query d q).companies
      = (d.company_keywords.filter
          (fun c => strContains (lowerChars q.data) (lowerChars c.data))).dedup := rfl

/-- The regulators field of the interpretation, definitionally. -/
theorem interpret_query_regulators (d : EntityVocab) (q : String) :
    (interpret_query d q).regulators
      = (d.regulators.filter
          (fun r => strContains (lowerChars q.data) (lowerChars r.data))).dedup := rfl

/-- The sectors field of the interpretation, definitionally. -/
theorem interpret_query_sectors (d : EntityVocab) (q : String) :
    (interpret_query d q).sectors
      = (((d.company_keywords.filter
            (fun c => strContains (lowerChars q.data) (lowerChars c.data))).filterMap
          (fun c => match d.sector_map.lookup c with
            | some sec => if sec = "" then none else some sec
            | none => none)
        ++ ((d.sector_map.map (fun p => p.2)).dedup).filter
            (fun sec => strContains (lowerChars q.data) (lowerChars sec.data))).dedup) := rfl

/-- The query_type field of the interpretation, definitionally. -/
theorem interpret_query_qtype (d : EntityVocab) (q : String) :
    (interpret_query d q).query_type
      = (if (interpret_query d q).companies = [] then
          if (interpret_query d q).sectors = [] then
            if (interpret_query d q).regulators = [] then "theme" else "regulator"
          else "sector"
        else "company") := rfl

/-- C8: interpret_query matches companies and regulators by
case-insensitive substring containment, and assigns query_type with the
fixed priority company, then sector, then regulator, then theme; in
particular any query containing a known company name yields query_type
company. -/
theorem c8_interpretation_precedence (d : EntityVocab) (query : String) :
    (∀ c, c ∈ (interpret_query d query).companies ↔
      (c ∈ d.company_keywords ∧
        strContains (lowerChars query.data) (lowerChars c.data) = true)) ∧
    (∀ r, r ∈ (interpret_query d query).regulators ↔
      (r ∈ d.regulators ∧
        strContains (lowerChars query.data) (lowerChars r.data) = true)) ∧
    ((interpret_query d query).query_type = "company" ↔
      ∃ c ∈ d.company_keywords,
        strContains (lowerChars query.data) (lowerChars c.data) = true) ∧
    ((interpret_query d query).query_type = "sector" ↔
      ((¬ ∃ c ∈ d.company_keywords,
          strContains (lowerChars query.data) (lowerChars c.data) = true) ∧
        ∃ sec ∈ d.sector_map.map (fun p => p.2),
          strContains (lowerChars query.data) (lowerChars sec.data) = true)) ∧
    ((interpret_query d query).query_type = "regulator" ↔
      ((¬ ∃ c ∈ d.company_keywords,
          strContains (lowerChars query.data) (lowerChars c.data) = true) ∧
        (¬ ∃ sec ∈ d.sector_map.map (fun p => p.2),
          strContains (lowerChars query.data) (lowerChars sec.data) = true) ∧
        ∃ r ∈ d.regulators,
          strContains (lowerChars query.data) (lowerChars r.data) = true)) ∧
    ((interpret_query d query).query_type = "theme" ↔
      ((¬ ∃ c ∈ d.company_keywords,
          strContains (lowerChars query.data) (lowerChars c.data) = true) ∧
        (¬ ∃ sec ∈ d.sector_map.map (fun p => p.2),
          strContains (lowerChars query.data) (lowerChars sec.data) = true) ∧
        ¬ ∃ r ∈ d.regulators,
          strContains (lowerChars query.data) (lowerChars r.data) = true)) := by
  have hcomp_iff : (interpret_query d query).companies = [] ↔
      ¬ ∃ c ∈ d.company_keywords,
        strContains (lowerChars query.data) (lowerChars c.data) = true := by
    rw [interpret_query_companies, List.dedup_eq_nil, List.filter_eq_nil_iff]
    simp
  have hreg_iff : (interpret_query d query).regulators = [] ↔
      ¬ ∃ r ∈ d.regulators,
        strContains (lowerChars query.data) (lowerChars r.data) = true := by
    rw [interpret_query_regulators, List.dedup_eq_nil, List.filter_eq_nil_iff]
    simp
  have hsec_iff : (interpret_query d query).companies = [] →
      ((interpret_query d query).sectors = [] ↔
        ¬ ∃ sec ∈ d.sector_map.map (fun p => p.2),
          strContains (lowerChars query.data) (lowerChars sec.data) = true) := by
    intro hc
    rw [interpret_query_companies, List.dedup_eq_nil] at hc
    rw [interpret_query_sectors, hc]
    simp only [List.filterMap_nil, List.nil_append]
    rw [List.dedup_eq_nil, List.filter_eq_nil_iff]
    simp
  have hmem1 : ∀ c, c ∈ (interpret_query d query).companies ↔
      (c ∈ d.company_keywords ∧
        strContains (lowerChars query.data) (lowerChars c.data) = true) := by
    intro c
    rw [interpret_query_companies]
    simp [List.mem_dedup, List.mem_filter]
  have hmem2 : ∀ r, r ∈ (interpret_query d query).regulators ↔
      (r ∈ d.regulators ∧
        strContains (lowerChars query.data) (lowerChars r.data) = true) := by
    intro r
    rw [interpret_query_regulators]
    simp [List.mem_dedup, List.mem_filter]
  refine ⟨hmem1, hmem2, ?_, ?_, ?_, ?_⟩
  all_goals {
    by_cases hc : (interpret_query d query).companies = []
    case neg =>
      have hA : ∃ c ∈ d.company_keywords,
          strContains (lowerChars query.data) (lowerChars c.data) = true := by
        by_contra hnA
        exact hc (hcomp_iff.mpr hnA)
      have hq : (interpret_query d query).query_type = "company" := by
        rw [interpret_query_qtype, if_neg hc]
      rw [hq]
      first
      | exact iff_of_true rfl hA
      | exact iff_of_false (by decide) (fun h => h.1 hA)
    case pos =>
      have hA := hcomp_iff.mp hc
      by_cases hs : (interpret_query d query).sectors = []
      case neg =>
        have hB : ∃ sec ∈ d.sector_map.map (fun p => p.2),
            strContains (lowerChars query.data) (lowerChars sec.data) = true := by
          by_contra hnB
          exact hs ((hsec_iff hc).mpr hnB)
        have hq : (interpret_query d query).query_type = "sector" := by
          rw [interpret_query_qtype, if_pos hc, if_neg hs]
        rw [hq]
        first
        | exact iff_of_false (by decide) (fun h => hA h)
        | exact iff_of_true rfl ⟨hA, hB⟩
        | exact iff_of_false (by decide) (fun h => h.2.1 hB)
      case pos =>
        have hB := (hsec_iff hc).mp hs
        by_cases hr : (interpret_query d query).regulators = []
        case neg =>
          have hC : ∃ r ∈ d.regulators,
              strContains (lowerChars query.data) (lowerChars r.data) = true := by
            by_contra hnC
            exact hr (hreg_iff.mpr hnC)
          have hq : (interpret_query d query).query_type = "regulator" := by
            rw [interpret_query_qtype, if_pos hc, if_pos hs, if_neg hr]
          rw [hq]
          first
          | exact iff_of_false (by decide) (fun h => hA h)
          | exact iff_of_false (by decide) (fun h => hB h.2)
          | exact iff_of_true rfl ⟨hA, hB, hC⟩
          | exact iff_of_false (by decide) (fun h => h.2.2 hC)
        case pos =>
          have hC := hreg_iff.mp hr
          have hq : (interpret_query d query).query_type = "theme" := by
            rw [interpret_query_qtype, if_pos hc, if_pos hs, if_pos hr]
          rw [hq]
          first
          | exact iff_of_false (by decide) (fun h => hA h)
          | exact iff_of_false (by decide) (fun h => hB h.2)
          | exact iff_of_false (by decide) (fun h => hC h.2.2)
          | exact iff_of_true rfl ⟨hA, hB, hC⟩
  }

/-! ## Claim C9: the structured filter -/

/-- The ok flag of structured_filter, characterized as the four-case
predicate of the spec table: intersections of entity sets per query type,
and the strict 0.50 score threshold for theme. -/
theorem keepCandidate_iff (info : QueryIntent) (tags : EntityTags) (score : ℚ) :
    keepCandidate info tags score = true ↔
      (if info.query_type = "company" then
        (∃ c ∈ info.companies, c ∈ tags.companies) ∨
        (∃ s ∈ info.sectors, s ∈ tags.sectors)
      else if info.query_type = "sector" then
        ∃ s ∈ info.sectors, s ∈ tags.sectors
      else if info.query_type = "regulator" then
        ∃ g ∈ info.regulators, g ∈ tags.regulators
      else mkRat 1 2 < score) := by
  by_cases h1 : info.query_type = "company"
  · simp [keepCandidate, h1, List.any_eq_true]
  · by_cases h2 : info.query_type = "sector"
    · simp [keepCandidate, h1, h2, List.any_eq_true]
    · by_cases h3 : info.query_type = "regulator"
      · simp [keepCandidate, h1, h2, h3, List.any_eq_true]
      · simp [keepCandidate, h1, h2, h3]

/-- One candidate's contribution to the filterMap of structured_filter. -/
theorem structured_filter_step (store : QueryStore) (info : QueryIntent)
    (r : SemResult) (x : FilterResult) :
    ((match get_article store r.article_id with
      | none => none
      | some art =>
        if keepCandidate info
            ((get_entities_for_article store r.article_id).getD ⟨[], [], []⟩)
            r.score then
          some (⟨art, (get_entities_for_article store r.article_id).getD ⟨[], [], []⟩,
            r.score⟩ : FilterResult)
        else none) = some x) ↔
      ∃ art, get_article store r.article_id = some art ∧
        keepCandidate info
          ((get_entities_for_article store r.article_id).getD ⟨[], [], []⟩) r.score
          = true ∧
        x = ⟨art, (get_entities_for_article store r.article_id).getD ⟨[], [], []⟩,
          r.score⟩ := by
  cases hga : get_article store r.article_id with
  | none =>
    dsimp only
    constructor
    · intro h; exact Option.noConfusion h
    · rintro ⟨art, hart, -, -⟩; exact Option.noConfusion hart
  | some a =>
    dsimp only
    by_cases hk : keepCandidate info
        ((get_entities_for_article store r.article_id).getD ⟨[], [], []⟩) r.score = true
    · rw [if_pos hk]
      constructor
      · intro h
        exact ⟨a, rfl, hk, (Option.some_inj.mp h).symm⟩
      · rintro ⟨art, hart, -, rfl⟩
        rw [Option.some_inj.mp hart]
    · rw [if_neg hk]
      constructor
      · intro h; exact Option.noConfusion h
      · rintro ⟨art, hart, hk2, rfl⟩
        exact absurd hk2 hk

/-- C9: structured_filter keeps a candidate (whose article exists) exactly
according to the spec table, company intersections or sector intersections
under company queries, sector intersections under sector queries,
regulator intersections under regulator queries, raw score above 0.50
under theme queries, and the surviving candidates come back sorted by
non-increasing semantic score. -/
theorem c9_structured_filter_spec (store : QueryStore)
    (semantic_results : List SemResult) (info : QueryIntent) :
    (∀ x : FilterResult, x ∈ structured_filter store semantic_results info ↔
      ∃ r ∈ semantic_results, ∃ art, get_article store r.article_id = some art ∧
        x = ⟨art, (get_entities_for_article store r.article_id).getD ⟨[], [], []⟩,
          r.score⟩ ∧
        (if info.query_type = "company" then
          (∃ c ∈ info.companies,
            c ∈ ((get_entities_for_article store r.article_id).getD
              ⟨[], [], []⟩).companies) ∨
          (∃ s ∈ info.sectors,
            s ∈ ((get_entities_for_article store r.article_id).getD
              ⟨[], [], []⟩).sectors)
        else if info.query_type = "sector" then
          ∃ s ∈ info.sectors,
            s ∈ ((get_entities_for_article store r.article_id).getD
              ⟨[], [], []⟩).sectors
        else if info.query_type = "regulator" then
          ∃ g ∈ info.regulators,
            g ∈ ((get_entities_for_article store r.article_id).getD
              ⟨[], [], []⟩).regulators
        else mkRat 1 2 < r.score)) ∧
    ((structured_filter store semantic_results info).map
      (fun x => x.score)).Pairwise (fun a b => b ≤ a) := by
  constructor
  · intro x
    rw [structured_filter]
    rw [mem_sortLe, List.mem_filterMap]
    constructor
    · rintro ⟨r, hr, hstep⟩
      rcases (structured_filter_step store info r x).mp hstep with ⟨art, hart, hk, hx⟩
      exact ⟨r, hr, art, hart, hx, (keepCandidate_iff info _ r.score).mp hk⟩
    · rintro ⟨r, hr, art, hart, hx, hcond⟩
      refine ⟨r, hr, (structured_filter_step store info r x).mpr
        ⟨art, hart, (keepCandidate_iff info _ r.score).mpr hcond, hx⟩⟩
  · rw [structured_filter]
    have hpw := sortLe_pairwise (fun a b : FilterResult => decide (b.score ≤ a.score))
      (fun a b c hab hbc => by
        rw [decide_eq_true_eq] at hab hbc ⊢
        exact le_trans hbc hab)
      (fun a b => by
        rw [decide_eq_true_eq, decide_eq_true_eq]
        exact le_total b.score a.score)
      (semantic_results.filterMap (fun r =>
        match get_article store r.article_id with
        | none => none
        | some art =>
          if keepCandidate info
              ((get_entities_for_article store r.article_id).getD ⟨[], [], []⟩)
              r.score then
            some ⟨art, (get_entities_for_article store r.article_id).getD ⟨[], [], []⟩,
              r.score⟩
          else none))
    rw [List.pairwise_map]
    exact hpw.imp (fun h => decide_eq_true_eq.mp h)

/-! ## Claim C10: candidates with no stored entity record -/

/-- C10: a candidate whose article exists but whose entity record is
missing is processed without error with its entity sets read as empty: it
is dropped under company, sector and regulator query types, and under a
theme query it survives exactly when its raw score exceeds 0.50 (carrying
the empty tag record). -/
theorem c10_missing_entities (store : QueryStore) (info : QueryIntent)
    (r : SemResult) (art : Article)
    (hart : get_article store r.article_id = some art)
    (hent : get_entities_for_article store r.article_id = none) :
    ((info.query_type = "company" ∨ info.query_type = "sector" ∨
        info.query_type = "regulator") →
      structured_filter store [r] info = []) ∧
    (info.query_type = "theme" →
      structured_filter store [r] info
        = if mkRat 1 2 < r.score then [⟨art, ⟨[], [], []⟩, r.score⟩] else []) := by
  have htags : (get_entities_for_article store r.article_id).getD ⟨[], [], []⟩
      = ⟨[], [], []⟩ := by rw [hent]; rfl
  constructor
  · intro hq
    rw [structured_filter]
    have hk : keepCandidate info
        ((get_entities_for_article store r.article_id).getD ⟨[], [], []⟩) r.score
        = false := by
      rw [htags, keepCandidate]
      rcases hq with h | h | h
      · simp [h]
      · by_cases h1 : info.query_type = "company"
        · simp [h1]
        · simp [h1, h]
      · by_cases h1 : info.query_type = "company"
        · simp [h1]
        · by_cases h2 : info.query_type = "sector"
          · simp [h1, h2]
          · simp [h1, h2, h]
    simp only [List.filterMap_cons, hart, hk, Bool.false_eq_true, if_false,
      List.filterMap_nil]
    rfl
  · intro hq
    rw [structured_filter]
    have h1 : info.query_type ≠ "company" := by rw [hq]; decide
    have h2 : info.query_type ≠ "sector" := by rw [hq]; decide
    have h3 : info.query_type ≠ "regulator" := by rw [hq]; decide
    have hk : keepCandidate info
        ((get_entities_for_article store r.article_id).getD ⟨[], [], []⟩) r.score
        = decide (mkRat 1 2 < r.score) := by
      rw [keepCandidate, if_neg h1, if_neg h2, if_neg h3]
    by_cases hsc : mkRat 1 2 < r.score
    · rw [if_pos hsc]
      rw [htags] at hk
      simp only [List.filterMap_cons, hart, List.filterMap_nil, htags, hk,
        decide_eq_true_eq, hsc, if_true]
      simp [sortLe, insertLe]
    · rw [if_neg hsc]
      simp only [List.filterMap_cons, hart, hk, List.filterMap_nil]
      rw [if_neg (by simpa using hsc)]
      rfl

/-- C10 witness: a one-article store with no entity rows, a theme query and
a candidate with score 1: the hypotheses hold at this input and the
candidate is retained with empty tags since 1 exceeds 0.50. -/
theorem c10_missing_entities_witness :
    (get_article ⟨[⟨1, "t", "c", "d", "s"⟩], []⟩ (1 : Int)
        = some ⟨1, "t", "c", "d", "s"⟩) ∧
    (get_entities_for_article ⟨[⟨1, "t", "c", "d", "s"⟩], []⟩ (1 : Int) = none) ∧
    (((⟨"theme", [], [], []⟩ : QueryIntent).query_type = "company" ∨
        (⟨"theme", [], [], []⟩ : QueryIntent).query_type = "sector" ∨
        (⟨"theme", [], [], []⟩ : QueryIntent).query_type = "regulator") →
      structured_filter ⟨[⟨1, "t", "c", "d", "s"⟩], []⟩ [⟨1, 1⟩]
        ⟨"theme", [], [], []⟩ = []) ∧
    ((⟨"theme", [], [], []⟩ : QueryIntent).query_type = "theme" →
      structured_filter ⟨[⟨1, "t", "c", "d", "s"⟩], []⟩ [⟨1, 1⟩]
        ⟨"theme", [], [], []⟩
        = if mkRat 1 2 < (⟨1, 1⟩ : SemResult).score then
            [⟨⟨1, "t", "c", "d", "s"⟩, ⟨[], [], []⟩, (⟨1, 1⟩ : SemResult).score⟩]
          else []) := by
  refine ⟨rfl, rfl, ?_, ?_⟩
  · exact (c10_missing_entities ⟨[⟨1, "t", "c", "d", "s"⟩], []⟩ ⟨"theme", [], [], []⟩
      ⟨1, 1⟩ ⟨1, "t", "c", "d", "s"⟩ rfl rfl).1
  · exact (c10_missing_entities ⟨[⟨1, "t", "c", "d", "s"⟩], []⟩ ⟨"theme", [], [], []⟩
      ⟨1, 1⟩ ⟨1, "t", "c", "d", "s"⟩ rfl rfl).2

/-! ## The inner loop preserves its invariant -/

/-- Membership in the neighbor list is exactly the threshold test. -/
theorem mem_nbrList {n : Nat} (sim : Fin n → Fin n → ℚ) (τ : ℚ) (u v : Fin n) :
    v ∈ nbrList sim τ u ↔ τ ≤ sim u v := by
  rw [nbrList]
  simp [List.mem_filter]

/-- The neighbor list is duplicate free. -/
theorem nbrList_nodup {n : Nat} (sim : Fin n → Fin n → ℚ) (τ : ℚ) (u : Fin n) :
    (nbrList sim τ u).Nodup :=
  (List.nodup_finRange n).filter _

/-- One iteration of the while loop (pop u, push its unvisited neighbors)
preserves the invariant. -/
theorem dfsInv_step {n : Nat} (sim : Fin n → Fin n → ℚ) (τ : ℚ)
    (s0 : ClusterState n) (i : Fin n) (label : Int)
    (u : Fin n) (rest : List (Fin n)) (st : ClusterState n)
    (hinv : DfsInv sim τ s0 i label (u :: rest) st) :
    DfsInv sim τ s0 i label
      (processNbrs label (nbrList sim τ u) rest st).1
      (processNbrs label (nbrList sim τ u) rest st).2 := by
  obtain ⟨h1, h2, h3, h4, h5, h6⟩ := hinv
  have hN := nbrList_nodup sim τ u
  have hvis := processNbrs_visited label (nbrList sim τ u) hN rest st
  have hlab := processNbrs_labels label (nbrList sim τ u) hN rest st
  have hstk := processNbrs_stack label (nbrList sim τ u) hN rest st
  have hu := h1 u (List.mem_cons_self u rest)
  have hreach_u : ∀ v, v ∈ nbrList sim τ u → Reach sim τ i v := fun v hv =>
    Relation.ReflTransGen.tail hu.2 ((mem_nbrList sim τ u v).mp hv)
  refine ⟨?_, ?_, ?_, ?_, ?_, ?_⟩
  · intro v hv
    rw [hstk] at hv
    rcases List.mem_append.mp hv with hv1 | hv2
    · have hvL : v ∈ nbrList sim τ u :=
        List.mem_of_mem_filter (List.mem_reverse.mp hv1)
      exact ⟨by rw [hvis v]; simp [hvL], hreach_u v hvL⟩
    · have hmem := h1 v (List.mem_cons_of_mem u hv2)
      exact ⟨by rw [hvis v]; simp [hmem.1], hmem.2⟩
  · intro v hv
    rw [hvis v]
    simp [h2 v hv]
  · rw [hvis i]
    simp [h3]
  · intro v hv
    rw [hvis v] at hv
    rcases (by simpa using hv : st.visited v = true ∨ v ∈ nbrList sim τ u) with hsv | hvL
    · exact h4 v hsv
    · exact Or.inr (hreach_u v hvL)
  · intro v
    rw [hlab v]
    by_cases hsv : st.visited v = true
    · rw [if_neg (by simp [hsv])]
      rw [h5 v]
      have hvv : (processNbrs label (nbrList sim τ u) rest st).2.visited v = true := by
        rw [hvis v]; simp [hsv]
      simp only [hsv, hvv, true_and]
    · by_cases hvL : v ∈ nbrList sim τ u
      · have hold : s0.visited v = false := by
          cases hos : s0.visited v
          · rfl
          · exact absurd (h2 v hos) (by simp [hsv])
        rw [if_pos ⟨by simpa using hsv, hvL⟩]
        rw [if_pos ⟨by rw [hvis v]; simp [hvL], hold⟩]
      · rw [if_neg (by simp [hvL])]
        rw [h5 v]
        have hvv : (processNbrs label (nbrList sim τ u) rest st).2.visited v
            = st.visited v := by
          rw [hvis v]; simp [hvL]
        rw [hvv]
  · intro w hw hold
    rw [hvis w] at hw
    by_cases hws : st.visited w = true
    · by_cases hwu : w = u
      · subst hwu
        right
        intro v hv
        rw [hvis v]
        simp [(mem_nbrList sim τ w v).mpr hv]
      · rcases h6 w hws hold with hwin | hall
        · left
          rw [hstk]
          rcases List.mem_cons.mp hwin with heq | hwr
          · exact absurd heq hwu
          · exact List.mem_append_right _ hwr
        · right
          intro v hv
          rw [hvis v]
          simp [hall v hv]
    · have hwL : w ∈ nbrList sim τ u := by
        rcases (by simpa using hw : st.visited w = true ∨ w ∈ nbrList sim τ u) with h | h
        · exact absurd h hws
        · exact h
      left
      rw [hstk]
      apply List.mem_append_left
      rw [List.mem_reverse]
      exact List.mem_filter.mpr ⟨hwL, by simp [hws]⟩

/-! ## The while loop: invariant holds at exit, characterizing the result -/

/-- Running the while stack loop from any invariant state lands in an
invariant state with an empty stack. -/
theorem dfsLoop_inv {n : Nat} (sim : Fin n → Fin n → ℚ) (τ : ℚ)
    (s0 : ClusterState n) (i : Fin n) (label : Int) :
    ∀ (stack : List (Fin n)) (st : ClusterState n),
      DfsInv sim τ s0 i label stack st →
      DfsInv sim τ s0 i label [] (dfsLoop sim τ label stack st) := by
  intro stack st
  induction stack, st using dfsLoop.induct sim τ label with
  | case1 s =>
    intro h
    rw [dfsLoop]
    exact h
  | case2 u rest s ih =>
    intro h
    rw [dfsLoop]
    exact ih (dfsInv_step sim τ s0 i label u rest s h)

/-- Walking edges from inside a closed visited set stays inside it. -/
theorem closed_reach {n : Nat} (sim : Fin n → Fin n → ℚ) (τ : ℚ)
    (vis : Fin n → Bool) (hc : Closed sim τ vis) :
    ∀ a b, Reach sim τ a b → vis a = true → vis b = true := by
  intro a b h
  induction h with
  | refl => exact id
  | tail hab hbc ih => intro ha; exact hc _ _ (ih ha) hbc

/-- Reachability is symmetric over a symmetric similarity matrix. -/
theorem reach_symm {n : Nat} (sim : Fin n → Fin n → ℚ) (τ : ℚ)
    (hsym : ∀ a b, sim a b = sim b a) :
    ∀ a b, Reach sim τ a b → Reach sim τ b a := by
  have hes : Symmetric (fun u v : Fin n => τ ≤ sim u v) := by
    intro a b h
    rw [hsym b a]
    exact h
  exact fun a b h => (Relation.ReflTransGen.symmetric hes) h

/-- At loop exit from a root i outside the closed visited set s0, the
visited set has grown by exactly the connected component of i, and exactly
that component received the current label. -/
theorem dfsLoop_correct {n : Nat} (sim : Fin n → Fin n → ℚ) (τ : ℚ)
    (hsym : ∀ a b, sim a b = sim b a)
    (s0 : ClusterState n) (i : Fin n) (label : Int)
    (hclosed : Closed sim τ s0.visited) (hi0 : s0.visited i = false)
    (st : ClusterState n) (hinv : DfsInv sim τ s0 i label [] st) :
    (∀ v, st.visited v = true ↔ (s0.visited v = true ∨ Reach sim τ i v)) ∧
    (∀ v, Reach sim τ i v → st.labels v = label) ∧
    (∀ v, ¬ Reach sim τ i v → st.labels v = s0.labels v) := by
  obtain ⟨h1, h2, h3, h4, h5, h6⟩ := hinv
  have hnotreach : ∀ v, s0.visited v = true → ¬ Reach sim τ i v := by
    intro v hv hr
    have hvi := closed_reach sim τ s0.visited hclosed v i
      (reach_symm sim τ hsym i v hr) hv
    rw [hvi] at hi0
    exact Bool.noConfusion hi0
  have hvis_iff : ∀ v, st.visited v = true ↔
      (s0.visited v = true ∨ Reach sim τ i v) := by
    intro v
    constructor
    · exact h4 v
    · intro hv
      rcases hv with hv | hv
      · exact h2 v hv
      · induction hv with
        | refl => exact h3
        | tail hab hbc ih =>
          rename_i b c
          by_cases hb0 : s0.visited b = true
          · exact h2 _ (hclosed _ _ hb0 hbc)
          · rcases h6 _ ih (by simpa using hb0) with hmem | hall
            · exact absurd hmem (List.not_mem_nil _)
            · exact hall _ hbc
  refine ⟨hvis_iff, ?_, ?_⟩
  · intro v hr
    have hv0 : s0.visited v = false := by
      cases h0 : s0.visited v
      · rfl
      · exact absurd hr (hnotreach v h0)
    have hvv : st.visited v = true := (hvis_iff v).mpr (Or.inr hr)
    rw [h5 v, if_pos ⟨hvv, hv0⟩]
  · intro v hr
    rw [h5 v]
    by_cases hvv : st.visited v = true
    · have hsv : s0.visited v = true := ((hvis_iff v).mp hvv).resolve_right hr
      rw [if_neg (by simp [hsv])]
    · rw [if_neg (by simp [hvv])]

/-! ## The outer loop maintains its invariant -/

/-- The invariant of the outer loop is preserved through the whole
traversal, visited only grows, and every processed index ends visited. -/
theorem outerLoop_spec {n : Nat} (sim : Fin n → Fin n → ℚ) (τ : ℚ)
    (hsym : ∀ a b, sim a b = sim b a) :
    ∀ (todo : List (Fin n)) (label : Int) (s : ClusterState n),
      OuterInv sim τ label s →
      OuterInv sim τ (outerLoop sim τ todo label s).2
        (outerLoop sim τ todo label s).1 ∧
      (∀ v, s.visited v = true → (outerLoop sim τ todo label s).1.visited v = true) ∧
      (∀ v ∈ todo, (outerLoop sim τ todo label s).1.visited v = true) := by
  intro todo
  induction todo with
  | nil =>
    intro label s h
    rw [outerLoop]
    exact ⟨h, fun v hv => hv, by simp⟩
  | cons i rest ih =>
    intro label s h
    by_cases hi : s.visited i = true
    · rw [show outerLoop sim τ (i :: rest) label s = outerLoop sim τ rest label s by
        rw [outerLoop]; simp [hi]]
      rcases ih label s h with ⟨ha, hb, hc⟩
      refine ⟨ha, hb, ?_⟩
      intro v hv
      rcases List.mem_cons.mp hv with heq | hv2
      · subst heq; exact hb v hi
      · exact hc v hv2
    · obtain ⟨hC, hL0, hBnd, hIff, hSurj, hUnv⟩ := h
      have hib : s.visited i = false := by simpa using hi
      have hinv0 : DfsInv sim τ s i label [i]
          ⟨Function.update s.visited i true, Function.update s.labels i label⟩ := by
        refine ⟨?_, ?_, ?_, ?_, ?_, ?_⟩
        · intro v hv
          rcases List.mem_cons.mp hv with heq | hv2
          · subst heq
            exact ⟨by simp [Function.update_same], Relation.ReflTransGen.refl⟩
          · exact absurd hv2 (List.not_mem_nil v)
        · intro v hv
          by_cases hvi : v = i
          · subst hvi; simp [Function.update_same]
          · simpa [Function.update_noteq hvi] using hv
        · simp [Function.update_same]
        · intro v hv
          by_cases hvi : v = i
          · subst hvi; exact Or.inr Relation.ReflTransGen.refl
          · simp only [Function.update_noteq hvi] at hv
            exact Or.inl hv
        · intro v
          by_cases hvi : v = i
          · subst hvi
            simp [Function.update_same, hib]
          · simp only [Function.update_noteq hvi]
            by_cases hsv : s.visited v = true
            · rw [if_neg (by simp [hsv])]
            · rw [if_neg (by simp [Function.update_noteq hvi, hsv])]
        · intro w hw hold
          by_cases hwi : w = i
          · subst hwi; exact Or.inl (List.mem_cons_self _ _)
          · simp only [Function.update_noteq hwi] at hw
            rw [hw] at hold
            exact Bool.noConfusion hold
      have hinv1 := dfsLoop_inv sim τ s i label [i] _ hinv0
      obtain ⟨hvis2, hlabR, hlabN⟩ :=
        dfsLoop_correct sim τ hsym s i label hC hib _ hinv1
      have hno : ∀ v, s.visited v = true → ¬ Reach sim τ i v := by
        intro v hv hr
        have hvi := closed_reach sim τ s.visited hC v i
          (reach_symm sim τ hsym i v hr) hv
        rw [hvi] at hib
        exact Bool.noConfusion hib
      have hOI : OuterInv sim τ (label + 1)
          (dfsLoop sim τ label [i]
            ⟨Function.update s.visited i true, Function.update s.labels i label⟩) := by
        refine ⟨?_, ?_, ?_, ?_, ?_, ?_⟩
        · intro u v hu huv
          rcases (hvis2 u).mp hu with hou | hru
          · exact (hvis2 v).mpr (Or.inl (hC u v hou huv))
          · exact (hvis2 v).mpr (Or.inr (Relation.ReflTransGen.tail hru huv))
        · omega
        · intro v hv
          rcases (hvis2 v).mp hv with hov | hrv
          · have := hBnd v hov
            rw [hlabN v (hno v hov)]
            omega
          · rw [hlabR v hrv]
            omega
        · intro u v hu hv
          rcases (hvis2 u).mp hu with hou | hru
          · rcases (hvis2 v).mp hv with hov | hrv
            · rw [hlabN u (hno u hou), hlabN v (hno v hov)]
              exact hIff u v hou hov
            · rw [hlabN u (hno u hou), hlabR v hrv]
              constructor
              · intro heq
                exfalso
                have := (hBnd u hou).2
                omega
              · intro hr
                exfalso
                exact hno u hou
                  (Relation.ReflTransGen.trans hrv (reach_symm sim τ hsym u v hr))
          · rcases (hvis2 v).mp hv with hov | hrv
            · rw [hlabR u hru, hlabN v (hno v hov)]
              constructor
              · intro heq
                exfalso
                have := (hBnd v hov).2
                omega
              · intro hr
                exfalso
                exact hno v hov (Relation.ReflTransGen.trans hru hr)
            · rw [hlabR u hru, hlabR v hrv]
              constructor
              · intro _
                exact Relation.ReflTransGen.trans
                  (reach_symm sim τ hsym i u hru) hrv
              · intro _
                rfl
        · intro l hl0 hl1
          by_cases hll : l < label
          · rcases hSurj l hl0 hll with ⟨v, hvvis, hvlab⟩
            refine ⟨v, (hvis2 v).mpr (Or.inl hvvis), ?_⟩
            rw [hlabN v (hno v hvvis)]
            exact hvlab
          · have hleq : l = label := by omega
            subst hleq
            exact ⟨i, (hvis2 i).mpr (Or.inr Relation.ReflTransGen.refl),
              hlabR i Relation.ReflTransGen.refl⟩
        · intro v hv
          have hnv : ¬ (s.visited v = true ∨ Reach sim τ i v) := by
            intro hcon
            rw [(hvis2 v).mpr hcon] at hv
            exact Bool.noConfusion hv
          push_neg at hnv
          rw [hlabN v hnv.2]
          exact hUnv v (by simpa using hnv.1)
      rw [show outerLoop sim τ (i :: rest) label s
          = outerLoop sim τ rest (label + 1)
            (dfsLoop sim τ label [i]
              ⟨Function.update s.visited i true, Function.update s.labels i label⟩) by
        rw [outerLoop]; simp [hi]]
      rcases ih (label + 1) _ hOI with ⟨ha, hb, hc⟩
      refine ⟨ha, ?_, ?_⟩
      · intro v hv
        exact hb v ((hvis2 v).mpr (Or.inl hv))
      · intro v hv
        rcases List.mem_cons.mp hv with heq | hv2
        · subst heq
          exact hb v ((hvis2 v).mpr (Or.inr Relation.ReflTransGen.refl))
        · exact hc v hv2

/-! ## Top-level clustering facts -/

/-- The initial clustering state satisfies the outer invariant with
counter 0. -/
theorem outerInv_init {n : Nat} (sim : Fin n → Fin n → ℚ) (τ : ℚ) :
    OuterInv sim τ 0 (initState n) := by
  refine ⟨?_, le_refl 0, ?_, ?_, ?_, ?_⟩
  · intro u v hu
    exact Bool.noConfusion hu
  · intro v hv
    exact Bool.noConfusion hv
  · intro u v hu
    exact Bool.noConfusion hu
  · intro l hl0 hl1
    omega
  · intro v _
    rfl

/-- The final labels of cluster_by_threshold: two items share a label
exactly when they are connected, labels are the nonnegative integers below
the final counter, and every such integer is attained. -/
theorem clusterLabels_spec {n : Nat} (sim : Fin n → Fin n → ℚ) (τ : ℚ)
    (hsym : ∀ a b, sim a b = sim b a) :
    (∀ u v : Fin n, clusterLabels sim τ u = clusterLabels sim τ v ↔ Reach sim τ u v) ∧
    (∀ v, 0 ≤ clusterLabels sim τ v ∧ clusterLabels sim τ v < clusterCount sim τ) ∧
    (∀ l : Int, 0 ≤ l → l < clusterCount sim τ → ∃ v, clusterLabels sim τ v = l) ∧
    0 ≤ clusterCount sim τ := by
  obtain ⟨hOI, hmono, hall⟩ := outerLoop_spec sim τ hsym (List.finRange n) 0
    (initState n) (outerInv_init sim τ)
  obtain ⟨hC, hL0, hBnd, hIff, hSurj, hUnv⟩ := hOI
  have hvisall : ∀ v : Fin n,
      (outerLoop sim τ (List.finRange n) 0 (initState n)).1.visited v = true :=
    fun v => hall v (List.mem_finRange v)
  refine ⟨?_, ?_, ?_, hL0⟩
  · intro u v
    exact hIff u v (hvisall u) (hvisall v)
  · intro v
    exact hBnd v (hvisall v)
  · intro l h0 h1
    rcases hSurj l h0 h1 with ⟨v, -, hv⟩
    exact ⟨v, hv⟩

/-! ## Claim C5: threshold monotonicity -/

/-- C5: for a fixed batch and similarity matrix, two items placed in
different clusters at the lower threshold are also in different clusters
at any higher threshold (raising the threshold only removes edges, so it
never merges clusters). -/
theorem c5_threshold_monotone {n : Nat} (sim : Fin n → Fin n → ℚ)
    (τ₁ τ₂ : ℚ) (hτ : τ₁ ≤ τ₂) (hsym : ∀ a b, sim a b = sim b a)
    (i j : Fin n)
    (hdiff : clusterLabels sim τ₁ i ≠ clusterLabels sim τ₁ j) :
    clusterLabels sim τ₂ i ≠ clusterLabels sim τ₂ j := by
  intro heq
  apply hdiff
  have h2 := ((clusterLabels_spec sim τ₂ hsym).1 i j).mp heq
  have h1 : Reach sim τ₁ i j :=
    Relation.ReflTransGen.mono (fun a b hab => le_trans hτ hab) h2
  exact ((clusterLabels_spec sim τ₁ hsym).1 i j).mpr h1

/-- C5 witness: the identity-like matrix on two items at thresholds 1 and
1; items 0 and 1 get different labels, and the theorem transports the
difference to the higher threshold. -/
theorem c5_threshold_monotone_witness :
    ((1 : ℚ) ≤ 1) ∧
    (∀ a b : Fin 2, (fun i j : Fin 2 => if i = j then (1 : ℚ) else 0) a b
      = (fun i j : Fin 2 => if i = j then (1 : ℚ) else 0) b a) ∧
    (clusterLabels (fun i j : Fin 2 => if i = j then (1 : ℚ) else 0) 1 0
      ≠ clusterLabels (fun i j : Fin 2 => if i = j then (1 : ℚ) else 0) 1 1) ∧
    (clusterLabels (fun i j : Fin 2 => if i = j then (1 : ℚ) else 0) 1 0
      ≠ clusterLabels (fun i j : Fin 2 => if i = j then (1 : ℚ) else 0) 1 1) := by
  have hsym : ∀ a b : Fin 2, (fun i j : Fin 2 => if i = j then (1 : ℚ) else 0) a b
      = (fun i j : Fin 2 => if i = j then (1 : ℚ) else 0) b a := by decide
  have hdiff : clusterLabels (fun i j : Fin 2 => if i = j then (1 : ℚ) else 0) 1 0
      ≠ clusterLabels (fun i j : Fin 2 => if i = j then (1 : ℚ) else 0) 1 1 := by
    simp only [← clusterLabelsFuel_eq]
    decide
  exact ⟨le_refl 1, hsym, hdiff,
    c5_threshold_monotone _ 1 1 (le_refl 1) hsym 0 1 hdiff⟩

/-! ## Claim C1: deduplicate partitions into connected components -/

/-- Every member of a list appears in its enumeration from any start. -/
theorem mem_enumFrom_of_mem {α : Type} (a : α) :
    ∀ (l : List α) (k : Nat), a ∈ l → ∃ j : Nat, (j, a) ∈ List.enumFrom k l := by
  intro l
  induction l with
  | nil =>
    intro k h
    exact absurd h (List.not_mem_nil a)
  | cons x xs ih =>
    intro k h
    rcases List.mem_cons.mp h with heq | h2
    · subst heq
      exact ⟨k, by rw [List.enumFrom]; exact List.mem_cons_self _ _⟩
    · rcases ih (k + 1) h2 with ⟨j, hj⟩
      exact ⟨j, by rw [List.enumFrom]; exact List.mem_cons_of_mem _ hj⟩

/-- The member list of the group with label l, re-expressed through the
index set of that label. -/
theorem zip_labels_finRange {α : Type} (l : List α) (f : Fin l.length → Int) :
    ((List.finRange l.length).map f).zip l
      = (List.finRange l.length).map (fun i => (f i, l.get i)) := by
  apply List.ext_getElem
  · simp
  · intro i h1 h2
    simp [List.getElem_zip]

theorem dedup_members_eq (τ : ℚ) (articles : List Article)
    (sim : Fin articles.length → Fin articles.length → ℚ) (l : Int) :
    (((cluster_by_threshold sim τ).zip articles).filter
        (fun q => decide (q.1 = l))).map (fun q => q.2)
      = ((List.finRange articles.length).filter
          (fun i => decide (clusterLabels sim τ i = l))).map
          (fun i => articles.get i) := by
  rw [cluster_by_threshold]
  rw [zip_labels_finRange articles (clusterLabels sim τ)]
  rw [List.filter_map, List.map_map]
  rfl

/-- deduplicate on a nonempty batch, with its lets unfolded. -/
theorem deduplicate_eq (τ : ℚ) (articles : List Article)
    (sim : Fin articles.length → Fin articles.length → ℚ)
    (hne : ¬ articles.length = 0) :
    deduplicate τ articles sim
      = (sortLe (fun a b : Int => decide (a ≤ b))
          (cluster_by_threshold sim τ).dedup).enum.map (fun p =>
        { story_id := p.1
          representative := (pyMaxBy artKey
            ((((cluster_by_threshold sim τ).zip articles).filter
              (fun q => decide (q.1 = p.2))).map (fun q => q.2))).getD default
          article_ids := ((((cluster_by_threshold sim τ).zip articles).filter
            (fun q => decide (q.1 = p.2))).map (fun q => q.2)).map (fun m => m.id)
          members := (((cluster_by_threshold sim τ).zip articles).filter
            (fun q => decide (q.1 = p.2))).map (fun q => q.2) }) := by
  rw [deduplicate, if_neg hne]

/-- Membership in the sorted key list is attaining the label. -/
theorem dedup_keys_mem (τ : ℚ) {n : Nat} (sim : Fin n → Fin n → ℚ) (l : Int) :
    l ∈ sortLe (fun a b : Int => decide (a ≤ b)) (cluster_by_threshold sim τ).dedup
      ↔ ∃ v : Fin n, clusterLabels sim τ v = l := by
  rw [mem_sortLe, List.mem_dedup, cluster_by_threshold]
  simp [List.mem_map]

/-- The sorted key list is duplicate free. -/
theorem dedup_keys_nodup (τ : ℚ) {n : Nat} (sim : Fin n → Fin n → ℚ) :
    (sortLe (fun a b : Int => decide (a ≤ b))
      (cluster_by_threshold sim τ).dedup).Nodup :=
  (sortLe_perm _ _).nodup_iff.mpr (List.nodup_dedup _)

/-- C1: for every batch with its (symmetric) similarity matrix and
pairwise-distinct article ids, deduplicate returns stories whose member id
sets are pairwise disjoint with union the input id set, each story
nonempty, two articles share a story exactly when their indices are
connected in the threshold graph, and the cluster labels are the
nonnegative integers contiguous from 0. -/
theorem c1_dedup_partition (τ : ℚ) (articles : List Article)
    (sim : Fin articles.length → Fin articles.length → ℚ)
    (hsym : ∀ a b, sim a b = sim b a)
    (hids : (articles.map (fun a => a.id)).Nodup) :
    ((deduplicate τ articles sim).Pairwise (fun s t =>
      ∀ x, x ∈ s.article_ids → x ∉ t.article_ids)) ∧
    (∀ x : Int, (∃ s ∈ deduplicate τ articles sim, x ∈ s.article_ids) ↔
      x ∈ articles.map (fun a => a.id)) ∧
    (∀ s ∈ deduplicate τ articles sim, s.members ≠ []) ∧
    (∀ i j : Fin articles.length,
      (∃ s ∈ deduplicate τ articles sim,
        (articles.get i).id ∈ s.article_ids ∧ (articles.get j).id ∈ s.article_ids)
      ↔ Reach sim τ i j) ∧
    (∃ L : Int, 0 ≤ L ∧
      ∀ z : Int, z ∈ cluster_by_threshold sim τ ↔ 0 ≤ z ∧ z < L) := by
  by_cases hne : articles.length = 0
  · have hnil : articles = [] := List.length_eq_zero.mp hne
    subst hnil
    have hded : deduplicate τ [] sim = [] := by rw [deduplicate]; rfl
    refine ⟨?_, ?_, ?_, ?_, ⟨0, le_refl 0, ?_⟩⟩
    · rw [hded]; exact List.Pairwise.nil
    · intro x
      rw [hded]
      simp
    · intro s hs
      rw [hded] at hs
      exact absurd hs (List.not_mem_nil s)
    · intro i
      exact i.elim0
    · intro z
      rw [show cluster_by_threshold sim τ = [] from rfl]
      simp
  · obtain ⟨hIff, hBnd, hSurj, hCnt⟩ := clusterLabels_spec sim τ hsym
    have hded := deduplicate_eq τ articles sim hne
    have idInj : ∀ i j : Fin articles.length,
        (articles.get i).id = (articles.get j).id → i = j := by
      intro i j hij
      have hleni : i.val < (articles.map (fun a => a.id)).length := by
        simpa using i.isLt
      have hlenj : j.val < (articles.map (fun a => a.id)).length := by
        simpa using j.isLt
      have h1 : (articles.map (fun a => a.id)).get ⟨i.val, hleni⟩
          = (articles.map (fun a => a.id)).get ⟨j.val, hlenj⟩ := by
        simpa using hij
      exact Fin.ext ((@List.Nodup.getElem_inj_iff _ _ hids _ hleni _ hlenj).mp
        (by simpa using h1))
    have hids_mem : ∀ (l : Int) (x : Int),
        x ∈ ((((cluster_by_threshold sim τ).zip articles).filter
            (fun q => decide (q.1 = l))).map (fun q => q.2)).map (fun m => m.id)
        ↔ ∃ i : Fin articles.length,
            clusterLabels sim τ i = l ∧ (articles.get i).id = x := by
      intro l x
      rw [dedup_members_eq]
      simp [List.mem_map, List.mem_filter]
    have hmem_mem : ∀ (l : Int) (v : Fin articles.length),
        clusterLabels sim τ v = l →
        articles.get v ∈ (((cluster_by_threshold sim τ).zip articles).filter
            (fun q => decide (q.1 = l))).map (fun q => q.2) := by
      intro l v hv
      rw [dedup_members_eq]
      exact List.mem_map.mpr ⟨v,
        List.mem_filter.mpr ⟨List.mem_finRange v, by simp [hv]⟩, rfl⟩
    refine ⟨?_, ?_, ?_, ?_, ?_⟩
    · rw [hded, List.pairwise_map]
      have h1 : ((sortLe (fun a b : Int => decide (a ≤ b))
          (cluster_by_threshold sim τ).dedup).enum.map Prod.snd).Nodup := by
        rw [List.enum_map_snd]
        exact dedup_keys_nodup τ sim
      have h2 := List.pairwise_map.mp h1
      refine h2.imp ?_
      intro p q hpq x hxp hxq
      rcases (hids_mem p.2 x).mp hxp with ⟨i, hci, hxi⟩
      rcases (hids_mem q.2 x).mp hxq with ⟨j, hcj, hxj⟩
      have hij : i = j := idInj i j (hxi.trans hxj.symm)
      subst hij
      exact hpq (hci ▸ hcj ▸ rfl)
    · intro x
      constructor
      · rintro ⟨s, hs, hx⟩
        rw [hded] at hs
        rcases List.mem_map.mp hs with ⟨p, hp, rfl⟩
        rcases (hids_mem p.2 x).mp hx with ⟨i, -, hix⟩
        exact List.mem_map.mpr ⟨articles.get i,
          List.mem_iff_get.mpr ⟨i, rfl⟩, hix⟩
      · intro hx
        rcases List.mem_map.mp hx with ⟨a, ha, rfl⟩
        rcases List.mem_iff_get.mp ha with ⟨i, rfl⟩
        have hkey : clusterLabels sim τ i ∈ sortLe (fun a b : Int => decide (a ≤ b))
            (cluster_by_threshold sim τ).dedup :=
          (dedup_keys_mem τ sim _).mpr ⟨i, rfl⟩
        rcases mem_enumFrom_of_mem _ _ 0 hkey with ⟨k, hk⟩
        rw [hded]
        refine ⟨_, List.mem_map.mpr ⟨(k, clusterLabels sim τ i), hk, rfl⟩, ?_⟩
        exact (hids_mem _ _).mpr ⟨i, rfl, rfl⟩
    · intro s hs
      rw [hded] at hs
      rcases List.mem_map.mp hs with ⟨p, hp, rfl⟩
      have hp2 : p.2 ∈ sortLe (fun a b : Int => decide (a ≤ b))
          (cluster_by_threshold sim τ).dedup := by
        rw [← List.enum_map_snd (sortLe (fun a b : Int => decide (a ≤ b))
          (cluster_by_threshold sim τ).dedup)]
        exact List.mem_map.mpr ⟨p, hp, rfl⟩
      rcases (dedup_keys_mem τ sim p.2).mp hp2 with ⟨v, hv⟩
      intro hemp
      have hget := hmem_mem p.2 v hv
      rw [show (((cluster_by_threshold sim τ).zip articles).filter
          (fun q => decide (q.1 = p.2))).map (fun q => q.2) = [] from hemp] at hget
      exact absurd hget (List.not_mem_nil _)
    · intro i j
      constructor
      · rintro ⟨s, hs, hxi, hxj⟩
        rw [hded] at hs
        rcases List.mem_map.mp hs with ⟨p, hp, rfl⟩
        rcases (hids_mem p.2 _).mp hxi with ⟨i', hci, hidi⟩
        rcases (hids_mem p.2 _).mp hxj with ⟨j', hcj, hidj⟩
        have hii : i' = i := idInj i' i hidi
        have hjj : j' = j := idInj j' j hidj
        subst hii
        subst hjj
        exact (hIff _ _).mp (hci.trans hcj.symm)
      · intro hr
        have heq : clusterLabels sim τ i = clusterLabels sim τ j :=
          (hIff i j).mpr hr
        have hkey : clusterLabels sim τ i ∈ sortLe (fun a b : Int => decide (a ≤ b))
            (cluster_by_threshold sim τ).dedup :=
          (dedup_keys_mem τ sim _).mpr ⟨i, rfl⟩
        rcases mem_enumFrom_of_mem _ _ 0 hkey with ⟨k, hk⟩
        rw [hded]
        refine ⟨_, List.mem_map.mpr ⟨(k, clusterLabels sim τ i), hk, rfl⟩, ?_, ?_⟩
        · exact (hids_mem _ _).mpr ⟨i, rfl, rfl⟩
        · exact (hids_mem _ _).mpr ⟨j, heq.symm, rfl⟩
    · refine ⟨clusterCount sim τ, hCnt, ?_⟩
      intro z
      rw [cluster_by_threshold]
      simp only [List.mem_map]
      constructor
      · rintro ⟨v, -, rfl⟩
        exact hBnd v
      · intro hz
        rcases hSurj z hz.1 hz.2 with ⟨v, hv⟩
        exact ⟨v, List.mem_finRange v, hv⟩

/-- C1 witness: two articles with ids 1 and 2 under the all-ones
similarity matrix at threshold 1; the matrix is symmetric, the ids are
distinct, and the theorem applied there gives the partition and component
facts for this concrete batch. -/
theorem c1_dedup_partition_witness :
    (∀ a b : Fin ([⟨1, "t", "c", "d", "s"⟩, ⟨2, "u", "v", "d", "s"⟩] : List Article).length, (fun _ _ : Fin ([⟨1, "t", "c", "d", "s"⟩, ⟨2, "u", "v", "d", "s"⟩] : List Article).length => (1 : ℚ)) a b = (fun _ _ : Fin ([⟨1, "t", "c", "d", "s"⟩, ⟨2, "u", "v", "d", "s"⟩] : List Article).length => (1 : ℚ)) b a) ∧
    ((([⟨1, "t", "c", "d", "s"⟩, ⟨2, "u", "v", "d", "s"⟩] : List Article).map (fun a => a.id)).Nodup) ∧
    (((deduplicate 1 ([⟨1, "t", "c", "d", "s"⟩, ⟨2, "u", "v", "d", "s"⟩] : List Article) (fun _ _ : Fin ([⟨1, "t", "c", "d", "s"⟩, ⟨2, "u", "v", "d", "s"⟩] : List Article).length => (1 : ℚ))).Pairwise (fun s t =>
      ∀ x, x ∈ s.article_ids → x ∉ t.article_ids)) ∧
    (∀ x : Int, (∃ s ∈ deduplicate 1 ([⟨1, "t", "c", "d", "s"⟩, ⟨2, "u", "v", "d", "s"⟩] : List Article) (fun _ _ : Fin ([⟨1, "t", "c", "d", "s"⟩, ⟨2, "u", "v", "d", "s"⟩] : List Article).length => (1 : ℚ)), x ∈ s.article_ids) ↔
      x ∈ ([⟨1, "t", "c", "d", "s"⟩, ⟨2, "u", "v", "d", "s"⟩] : List Article).map (fun a => a.id)) ∧
    (∀ s ∈ deduplicate 1 ([⟨1, "t", "c", "d", "s"⟩, ⟨2, "u", "v", "d", "s"⟩] : List Article) (fun _ _ : Fin ([⟨1, "t", "c", "d", "s"⟩, ⟨2, "u", "v", "d", "s"⟩] : List Article).length => (1 : ℚ)), s.members ≠ []) ∧
    (∀ i j : Fin ([⟨1, "t", "c", "d", "s"⟩, ⟨2, "u", "v", "d", "s"⟩] : List Article).length,
      (∃ s ∈ deduplicate 1 ([⟨1, "t", "c", "d", "s"⟩, ⟨2, "u", "v", "d", "s"⟩] : List Article) (fun _ _ : Fin ([⟨1, "t", "c", "d", "s"⟩, ⟨2, "u", "v", "d", "s"⟩] : List Article).length => (1 : ℚ)),
        (([⟨1, "t", "c", "d", "s"⟩, ⟨2, "u", "v", "d", "s"⟩] : List Article).get i).id ∈ s.article_ids ∧ (([⟨1, "t", "c", "d", "s"⟩, ⟨2, "u", "v", "d", "s"⟩] : List Article).get j).id ∈ s.article_ids)
      ↔ Reach (fun _ _ : Fin ([⟨1, "t", "c", "d", "s"⟩, ⟨2, "u", "v", "d", "s"⟩] : List Article).length => (1 : ℚ)) 1 i j) ∧
    (∃ L : Int, 0 ≤ L ∧
      ∀ z : Int, z ∈ cluster_by_threshold (fun _ _ : Fin ([⟨1, "t", "c", "d", "s"⟩, ⟨2, "u", "v", "d", "s"⟩] : List Article).length => (1 : ℚ)) 1 ↔ 0 ≤ z ∧ z < L)) :=
  ⟨fun _ _ => rfl, by decide,
    c1_dedup_partition 1 ([⟨1, "t", "c", "d", "s"⟩, ⟨2, "u", "v", "d", "s"⟩] : List Article) (fun _ _ : Fin ([⟨1, "t", "c", "d", "s"⟩, ⟨2, "u", "v", "d", "s"⟩] : List Article).length => (1 : ℚ)) (fun _ _ => rfl) (by decide)⟩

/-! ## Claim C6: representative selection -/

/-- The Python max fold returns the first element attaining the maximal
key: the scanned list decomposes into a strict-smaller prefix, the result,
and a no-larger suffix. -/
theorem pyFold_first_max (key : Article → Nat) :
    ∀ (rest : List Article) (acc : Article),
      ∃ t1 t2, acc :: rest
          = t1 ++ (rest.foldl (fun a x => if key a < key x then x else a) acc) :: t2 ∧
        (∀ m ∈ t1, key m < key (rest.foldl
          (fun a x => if key a < key x then x else a) acc)) ∧
        (∀ m ∈ t2, key m ≤ key (rest.foldl
          (fun a x => if key a < key x then x else a) acc)) := by
  intro rest
  induction rest with
  | nil =>
    intro acc
    exact ⟨[], [], rfl, by simp, by simp⟩
  | cons x rest ih =>
    intro acc
    by_cases hx : key acc < key x
    · have hstep : (x :: rest).foldl (fun a x => if key a < key x then x else a) acc
          = rest.foldl (fun a x => if key a < key x then x else a) x := by
        simp [List.foldl_cons, hx]
      rw [hstep]
      rcases ih x with ⟨t1, t2, hdec, hlt, hle⟩
      have hxres : key x ≤ key (rest.foldl
          (fun a x => if key a < key x then x else a) x) := by
        cases t1 with
        | nil =>
          injection hdec with h1 h2
          rw [← h1]
        | cons y t1' =>
          injection hdec with h1 h2
          subst h1
          exact le_of_lt (hlt x (List.mem_cons_self _ _))
      refine ⟨acc :: t1, t2, ?_, ?_, hle⟩
      · rw [List.cons_append]
        rw [← hdec]
      · intro m hm
        rcases List.mem_cons.mp hm with heq | hm2
        · subst heq
          exact lt_of_lt_of_le hx hxres
        · exact hlt m hm2
    · have hstep : (x :: rest).foldl (fun a x => if key a < key x then x else a) acc
          = rest.foldl (fun a x => if key a < key x then x else a) acc := by
        simp [List.foldl_cons, hx]
      rw [hstep]
      rcases ih acc with ⟨t1, t2, hdec, hlt, hle⟩
      cases t1 with
      | nil =>
        injection hdec with h1 h2
        refine ⟨[], x :: rest, ?_, by simp, ?_⟩
        · rw [List.nil_append, ← h1]
        · intro m hm
          rcases List.mem_cons.mp hm with heq | hm2
          · subst heq
            rw [← h1]
            exact Nat.le_of_not_lt hx
          · rw [h2] at hm2
            exact hle m hm2
      | cons y t1' =>
        injection hdec with h1 h2
        have hacc : key acc < key (List.foldl
            (fun a x => if key a < key x then x else a) acc rest) := by
          have hy := hlt y (List.mem_cons_self _ _)
          rwa [← h1] at hy
        refine ⟨acc :: x :: t1', t2, ?_, ?_, hle⟩
        · conv_lhs => rw [h2]
          simp
        · intro m hm
          rcases List.mem_cons.mp hm with heq | hm2
          · subst heq
            exact hacc
          · rcases List.mem_cons.mp hm2 with heq2 | hm3
            · subst heq2
              exact lt_of_le_of_lt (Nat.le_of_not_lt hx) hacc
            · exact hlt m (List.mem_cons_of_mem _ hm3)

/-- A story whose representative is the Python max of its nonempty member
list decomposes around that representative. -/
theorem story_decomp (rep : Article) (members : List Article)
    (hrep : rep = (pyMaxBy artKey members).getD default)
    (hne : members ≠ []) :
    ∃ t1 t2, members = t1 ++ rep :: t2 ∧
      (∀ m ∈ t1, artKey m < artKey rep) ∧
      (∀ m ∈ t2, artKey m ≤ artKey rep) := by
  rcases members with _ | ⟨a, rest⟩
  · exact absurd rfl hne
  · rw [hrep, pyMaxBy, Option.getD_some]
    exact pyFold_first_max artKey rest a

/-- C6 amended: every story's representative is the FIRST member (in the
group's input order) attaining the maximal value of len(content) +
len(title): the members decompose into a strictly smaller prefix, the
representative, and a no-larger suffix.  Ties are broken by earliest
position in the input list, not by lowest article id. -/
theorem c6_first_longest (τ : ℚ) (articles : List Article)
    (sim : Fin articles.length → Fin articles.length → ℚ)
    (s : Story) (hs : s ∈ deduplicate τ articles sim) :
    ∃ t1 t2, s.members = t1 ++ s.representative :: t2 ∧
      (∀ m ∈ t1, artKey m < artKey s.representative) ∧
      (∀ m ∈ t2, artKey m ≤ artKey s.representative) := by
  by_cases hne : articles.length = 0
  · rw [deduplicate, if_pos hne] at hs
    exact absurd hs (List.not_mem_nil s)
  · rw [deduplicate_eq τ articles sim hne] at hs
    rcases List.mem_map.mp hs with ⟨p, hp, rfl⟩
    have hp2 : p.2 ∈ sortLe (fun a b : Int => decide (a ≤ b))
        (cluster_by_threshold sim τ).dedup := by
      rw [← List.enum_map_snd (sortLe (fun a b : Int => decide (a ≤ b))
        (cluster_by_threshold sim τ).dedup)]
      exact List.mem_map.mpr ⟨p, hp, rfl⟩
    rcases (dedup_keys_mem τ sim p.2).mp hp2 with ⟨v, hv⟩
    have hvmem : articles.get v ∈ (((cluster_by_threshold sim τ).zip articles).filter
        (fun q => decide (q.1 = p.2))).map (fun q => q.2) := by
      rw [dedup_members_eq]
      exact List.mem_map.mpr ⟨v,
        List.mem_filter.mpr ⟨List.mem_finRange v, by simp [hv]⟩, rfl⟩
    apply story_decomp
    · rfl
    · intro hemp
      rw [show (((cluster_by_threshold sim τ).zip articles).filter
          (fun q => decide (q.1 = p.2))).map (fun q => q.2) = [] from hemp] at hvmem
      exact absurd hvmem (List.not_mem_nil _)

/-- C6 counterexample: two articles with equal title and content lengths,
ids 5 then 3, in one cluster (all-ones similarity, threshold 1).  The
representative has id 5 (the first member in input order), although both
members tie on the length key and 3 is the lower id, so the
lowest-id tie-break of the claim does not hold. -/
theorem c6_tie_not_lowest_id :
    ((deduplicate 1 [⟨5, "ab", "", "", ""⟩, ⟨3, "ab", "", "", ""⟩]
        (fun _ _ => 1)).map (fun s => s.representative.id) = [5]) ∧
    ((deduplicate 1 [⟨5, "ab", "", "", ""⟩, ⟨3, "ab", "", "", ""⟩]
        (fun _ _ => 1)).map (fun s => s.members.map artKey) = [[2, 2]]) ∧
    ((3 : Int) < 5) := by
  refine ⟨?_, ?_, by decide⟩
  · simp only [deduplicate, cluster_by_threshold_fuel]
    decide
  · simp only [deduplicate, cluster_by_threshold_fuel]
    decide

/-- C6 witness: a concrete story of the deduplicate output for the two
tied articles, together with the decomposition of its member list around
its representative given by the amended theorem. -/
theorem c6_first_longest_witness :
    ∃ s ∈ deduplicate 1 [⟨5, "ab", "", "", ""⟩, ⟨3, "ab", "", "", ""⟩]
        (fun _ _ => 1),
      ∃ t1 t2, s.members = t1 ++ s.representative :: t2 ∧
        (∀ m ∈ t1, artKey m < artKey s.representative) ∧
        (∀ m ∈ t2, artKey m ≤ artKey s.representative) := by
  have hmem : (⟨0, ⟨5, "ab", "", "", ""⟩, [5, 3],
      [⟨5, "ab", "", "", ""⟩, ⟨3, "ab", "", "", ""⟩]⟩ : Story)
      ∈ deduplicate 1 [⟨5, "ab", "", "", ""⟩, ⟨3, "ab", "", "", ""⟩]
        (fun _ _ => 1) := by
    simp only [deduplicate, cluster_by_threshold_fuel]
    decide
  exact ⟨_, hmem, c6_first_longest 1 _ _ _ hmem⟩
